import Mathlib

/-!
Verification of the Codebase_to_Txt core (Rust, `src-tauri/src`).

Shallow embedding conventions:
* Bytes are `Nat` (values < 256 in practice); Rust strings appear as
  `List Char` (the paths and markers in play are ASCII, where Rust's
  byte-wise string order and per-char `to_lowercase` coincide with the
  char-wise model used here).
* `u64` counters use `Nat` with explicit saturation at `2^64 - 1`,
  mirroring `saturating_add` / `saturating_mul`.
* External crates (`globset`, `ignore`, `content_inspector`) enter as
  abstract Boolean matchers: they are opaque inputs of the verified code.
* File-system state is a pure snapshot (`FsEntry` trees); reads are
  deterministic and loops over `read` calls take an explicit schedule of
  read sizes so that theorems can quantify over every chunking.
-/

/-- `u64::MAX`. -/
def U64_MAX : Nat := 2 ^ 64 - 1

/-- Model of `u64::saturating_add`. -/
def satAdd (a b : Nat) : Nat := min (a + b) U64_MAX

/-- Model of `u64::saturating_mul`. -/
def satMul (a b : Nat) : Nat := min (a * b) U64_MAX

/-! ## UTF-8 validation and lossy decoding

Models `core::str::from_utf8` (error position `valid_up_to`, error length
`error_len`: `none` when the input ends in an incomplete sequence) and
`String::from_utf8_lossy` (each maximal invalid subpart becomes one
U+FFFD), byte ranges as in `core/src/str/validations.rs`. -/

/-- Is `b` a UTF-8 continuation byte (`0x80..=0xBF`)? -/
def isCont (b : Nat) : Bool := 0x80 ≤ b && b ≤ 0xBF

/-- Allowed second byte of a three-byte sequence with leading byte `b`. -/
def utf8Second3Ok (b b2 : Nat) : Bool :=
  if b = 0xE0 then 0xA0 ≤ b2 && b2 ≤ 0xBF
  else if b = 0xED then 0x80 ≤ b2 && b2 ≤ 0x9F
  else isCont b2

/-- Allowed second byte of a four-byte sequence with leading byte `b`. -/
def utf8Second4Ok (b b2 : Nat) : Bool :=
  if b = 0xF0 then 0x90 ≤ b2 && b2 ≤ 0xBF
  else if b = 0xF4 then 0x80 ≤ b2 && b2 ≤ 0x8F
  else isCont b2

/-- Shift the `valid_up_to` position of a validation outcome by `n`. -/
def errShift (n : Nat) : Option (Nat × Option Nat) → Option (Nat × Option Nat)
  | none => none
  | some (v, e) => some (v + n, e)

/-- `core::str::from_utf8` outcome: `none` on success, otherwise
`some (valid_up_to, error_len)` for the first error (`error_len = none`
means the input ends in an incomplete sequence). -/
def utf8Err : List Nat → Option (Nat × Option Nat)
  | [] => none
  | b :: rest =>
    if b ≤ 0x7F then errShift 1 (utf8Err rest)
    else if b < 0xC2 then some (0, some 1)
    else if b ≤ 0xDF then
      match rest with
      | [] => some (0, none)
      | b2 :: rest2 =>
        if isCont b2 then errShift 2 (utf8Err rest2) else some (0, some 1)
    else if b ≤ 0xEF then
      match rest with
      | [] => some (0, none)
      | b2 :: rest2 =>
        if utf8Second3Ok b b2 then
          match rest2 with
          | [] => some (0, none)
          | b3 :: rest3 =>
            if isCont b3 then errShift 3 (utf8Err rest3) else some (0, some 2)
        else some (0, some 1)
    else if b ≤ 0xF4 then
      match rest with
      | [] => some (0, none)
      | b2 :: rest2 =>
        if utf8Second4Ok b b2 then
          match rest2 with
          | [] => some (0, none)
          | b3 :: rest3 =>
            if isCont b3 then
              match rest3 with
              | [] => some (0, none)
              | b4 :: rest4 =>
                if isCont b4 then errShift 4 (utf8Err rest4) else some (0, some 3)
            else some (0, some 2)
        else some (0, some 1)
    else some (0, some 1)

/-- The UTF-8 encoding of U+FFFD, emitted for each invalid subpart. -/
def replacementBytes : List Nat := [0xEF, 0xBF, 0xBD]

/-- `String::from_utf8_lossy`, as the byte sequence of the produced string. -/
def utf8Lossy : List Nat → List Nat
  | [] => []
  | b :: rest =>
    if b ≤ 0x7F then b :: utf8Lossy rest
    else if b < 0xC2 then replacementBytes ++ utf8Lossy rest
    else if b ≤ 0xDF then
      match rest with
      | [] => replacementBytes
      | b2 :: rest2 =>
        if isCont b2 then b :: b2 :: utf8Lossy rest2
        else replacementBytes ++ utf8Lossy (b2 :: rest2)
    else if b ≤ 0xEF then
      match rest with
      | [] => replacementBytes
      | b2 :: rest2 =>
        if utf8Second3Ok b b2 then
          match rest2 with
          | [] => replacementBytes
          | b3 :: rest3 =>
            if isCont b3 then b :: b2 :: b3 :: utf8Lossy rest3
            else replacementBytes ++ utf8Lossy (b3 :: rest3)
        else replacementBytes ++ utf8Lossy (b2 :: rest2)
    else if b ≤ 0xF4 then
      match rest with
      | [] => replacementBytes
      | b2 :: rest2 =>
        if utf8Second4Ok b b2 then
          match rest2 with
          | [] => replacementBytes
          | b3 :: rest3 =>
            if isCont b3 then
              match rest3 with
              | [] => replacementBytes
              | b4 :: rest4 =>
                if isCont b4 then b :: b2 :: b3 :: b4 :: utf8Lossy rest4
                else replacementBytes ++ utf8Lossy (b4 :: rest4)
            else replacementBytes ++ utf8Lossy (b3 :: rest3)
        else replacementBytes ++ utf8Lossy (b2 :: rest2)
    else replacementBytes ++ utf8Lossy rest

/-! ## Newline normalisation (`exporter.rs::normalize_newline_bytes`) -/

/-- The `while` loop of `normalize_newline_bytes`: returns the pushed
output bytes and the final `pending_cr` flag. -/
def normCore : List Nat → List Nat × Bool
  | [] => ([], false)
  | 13 :: [] => ([], true)
  | 13 :: 10 :: rest => let r := normCore rest; (10 :: r.1, r.2)
  | 13 :: b :: rest => let r := normCore (b :: rest); (10 :: r.1, r.2)
  | b :: rest => let r := normCore rest; (b :: r.1, r.2)

/-- `normalize_newline_bytes(input, pending_cr, output)`: output bytes
appended for this chunk and the outgoing `pending_cr` flag. -/
def normalize_newline_bytes (input : List Nat) (pending : Bool) : List Nat × Bool :=
  if pending then
    match input with
    | 10 :: rest => let r := normCore rest; (10 :: r.1, r.2)
    | _ => let r := normCore input; (10 :: r.1, r.2)
  else normCore input

/-- Reference newline normaliser, following the spec's words: every
`\r\n` collapses to one `\n`, every bare `\r` (including at end of
input) becomes `\n`. Used only to state the refinement in C4. -/
def specNormalizeCrlf : List Nat → List Nat
  | [] => []
  | 13 :: 10 :: rest => 10 :: specNormalizeCrlf rest
  | 13 :: rest => 10 :: specNormalizeCrlf rest
  | b :: rest => b :: specNormalizeCrlf rest

/-- The sequence of per-chunk `normalize_newline_bytes` calls made by the
streaming loop, starting from `pending_cr = false`. -/
def normStream : List (List Nat) → Bool → List Nat × Bool
  | [], pending => ([], pending)
  | c :: cs, pending =>
    let r := normalize_newline_bytes c pending
    let rs := normStream cs r.2
    (r.1 ++ rs.1, rs.2)

/-- Normalised bytes produced for a whole chunk sequence, including the
final `\n` flushed for a still-pending `\r` (exporter.rs lines 278-280). -/
def normStreamAll (chunks : List (List Nat)) : List Nat :=
  let r := normStream chunks false
  r.1 ++ (if r.2 then [10] else [])

/-! ## The buffered writer and `total_written` counter -/

/-- The output `BufWriter` plus the `total_written` counter threaded
through every write helper in `exporter.rs`. -/
structure OutWriter where
  out : List Nat
  total : Nat
deriving DecidableEq, Repr

/-- One `write_all` of `bytes` together with
`total_written.saturating_add(bytes.len())`. -/
def pushBytes (w : OutWriter) (bytes : List Nat) : OutWriter :=
  { out := w.out ++ bytes, total := satAdd w.total bytes.length }

/-- `write_utf8_lossy_raw`: emit `String::from_utf8_lossy(bytes)` and add
its (post-replacement) byte length to the counter. -/
def write_utf8_lossy_raw (w : OutWriter) (bytes : List Nat) : OutWriter :=
  if bytes.isEmpty then w else pushBytes w (utf8Lossy bytes)

/-- `write_utf8_lossy_segment`: prepend the carried tail, split at the
largest prefix that is valid or conclusively invalid, emit it lossily,
and retain the rest as the new tail. Returns (writer, new tail). -/
def write_utf8_lossy_segment (w : OutWriter) (segment tail : List Nat) :
    OutWriter × List Nat :=
  if segment.isEmpty then (w, tail)
  else
    let merged := tail ++ segment
    let split :=
      match utf8Err merged with
      | none => merged.length
      | some (v, none) => v
      | some (_, some _) => merged.length
    (write_utf8_lossy_raw w (merged.take split), merged.drop split)

/-- `write_newline`. -/
def write_newline (w : OutWriter) : OutWriter := pushBytes w [10]

/-- `write_line`: the line's bytes followed by `\n`. -/
def write_line (w : OutWriter) (line : List Nat) : OutWriter :=
  write_newline (pushBytes w line)

/-! ## Streaming a file body (`write_file_content_streaming`) -/

/-- `STREAM_CHUNK_SIZE = 16 * 1024`. -/
def streamChunkSize : Nat := 16 * 1024

/-- State of the streaming loop: writer, `pending_cr`, `utf8_tail`, and a
ghost count of raw bytes read from the source file. -/
structure StreamState where
  w : OutWriter
  pending : Bool
  tail : List Nat
  consumed : Nat
deriving DecidableEq, Repr

/-- The read loop of `write_file_content_streaming`. `remaining` is the
byte budget (`None` = unbounded), `content` the unread part of the file,
`sched` the sizes the OS grants to successive `read` calls (an exhausted
schedule grants full requests; a 0 entry acts as end-of-file, which for
the byte sequences modelled here only happens at true end of input).
`fuel` is a structural bound: the wrapper passes `content.length`, which
dominates the iteration count since every iteration consumes at least one
byte. -/
def streamLoopF : Nat → Option Nat → List Nat → List Nat → StreamState → StreamState
  | 0, _, _, _, st => st
  | fuel + 1, remaining, content, sched, st =>
    match remaining with
    | some 0 => st
    | _ =>
      let toRead :=
        match remaining with
        | some r => min r streamChunkSize
        | none => streamChunkSize
      let want :=
        match sched with
        | [] => toRead
        | s :: _ => min s toRead
      let readLen := min want content.length
      if readLen = 0 then st
      else
        let chunk := content.take readLen
        let remaining' := remaining.map (fun r => r - readLen)
        let nres := normalize_newline_bytes chunk st.pending
        let seg := write_utf8_lossy_segment st.w nres.1 st.tail
        streamLoopF fuel remaining' (content.drop readLen) sched.tail
          ⟨seg.1, nres.2, seg.2, st.consumed + readLen⟩

/-- `write_file_content_streaming`: run the read loop, flush a pending
`\r` as `\n`, then write any leftover UTF-8 tail as-is (lossily).
Returns the writer and the number of raw bytes read. -/
def write_file_content_streaming (w : OutWriter) (content : List Nat)
    (maxBytes : Option Nat) (sched : List Nat) : OutWriter × Nat :=
  let st := streamLoopF content.length maxBytes content sched ⟨w, false, [], 0⟩
  let st1 :=
    if st.pending then
      let seg := write_utf8_lossy_segment st.w [10] st.tail
      ⟨seg.1, false, seg.2, st.consumed⟩
    else st
  let w2 := if st1.tail.isEmpty then st1.w else write_utf8_lossy_raw st1.w st1.tail
  (w2, st1.consumed)

/-! ## Characters, lowercasing, byte-wise string comparison

Rust compares `str` values byte-lexicographically, which on UTF-8 equals
code-point order; all paths exercised here are ASCII, where
`str::to_lowercase` also agrees with per-char `Char.toLower`. -/

/-- `str::to_lowercase` (ASCII fragment). -/
def lowerChars (s : List Char) : List Char := s.map Char.toLower

/-- UTF-8 bytes of an (ASCII) string. -/
def strBytes (s : List Char) : List Nat := s.map Char.toNat

/-- Code-point comparison of chars (= Rust byte order on UTF-8). -/
def charCmp (a b : Char) : Ordering :=
  if a.toNat < b.toNat then .lt else if b.toNat < a.toNat then .gt else .eq

/-- Lexicographic comparison of strings (`str::cmp`). -/
def cmpChars : List Char → List Char → Ordering
  | [], [] => .eq
  | [], _ :: _ => .lt
  | _ :: _, [] => .gt
  | a :: xs, b :: ys =>
    match charCmp a b with
    | .eq => cmpChars xs ys
    | o => o

/-- The comparison used at all three sort sites: case-insensitive primary
(`to_lowercase().cmp`), case-sensitive tiebreak. -/
def ci_cmp (a b : List Char) : Ordering :=
  let primary := cmpChars (lowerChars a) (lowerChars b)
  if primary = .eq then cmpChars a b else primary

/-- `infrastructure/sorting.rs::compare_entries`: directories first, then
case-insensitive path with case-sensitive tiebreak. -/
def compare_entries (pathA : List Char) (isDirA : Bool)
    (pathB : List Char) (isDirB : Bool) : Ordering :=
  match isDirA, isDirB with
  | true, false => .lt
  | false, true => .gt
  | _, _ => ci_cmp pathA pathB

/-! ## A stable sort on Boolean comparators (models `slice::sort_by`);
with a non-strict `le` this right-fold insertion sort is stable, and at
every use site the comparator never returns `Equal` on two distinct
inputs, so it computes exactly what `sort_by` does. -/

/-- Insert `a` into `l` before the first element `b` with `le a b`. -/
def insertCmp {α : Type} (le : α → α → Bool) (a : α) : List α → List α
  | [] => [a]
  | b :: l => if le a b then a :: b :: l else b :: insertCmp le a l

/-- Insertion sort by `le`. -/
def sortCmp {α : Type} (le : α → α → Bool) : List α → List α
  | [] => []
  | a :: l => insertCmp le a (sortCmp le l)

/-! ## The rule engine (`domain/rules.rs`) -/

/-- `ManualSelectionState`. -/
inductive ManualSelectionState where
  | Include
  | Exclude
  | Inherit
deriving DecidableEq, Repr

/-- `Decision`. -/
inductive Decision where
  | Include
  | Exclude
deriving DecidableEq, Repr

/-- `str::trim` (ASCII whitespace fragment of Unicode `White_Space`). -/
def trimChars (s : List Char) : List Char :=
  ((s.dropWhile Char.isWhitespace).reverse.dropWhile Char.isWhitespace).reverse

/-- `trim_start_matches("./")`: repeatedly strip a leading `./`. -/
def stripLeadingDotSlash : List Char → List Char
  | '.' :: '/' :: rest => stripLeadingDotSlash rest
  | s => s

/-- `trim_matches('/')`: strip all leading and trailing slashes. -/
def trimSlashes (s : List Char) : List Char :=
  ((s.dropWhile (· == '/')).reverse.dropWhile (· == '/')).reverse

/-- `rules.rs::normalize_key`: trim, backslashes to `/`, strip leading
`./`, strip surrounding `/`. -/
def normalize_key (input : List Char) : List Char :=
  trimSlashes (stripLeadingDotSlash
    ((trimChars input).map (fun c => if c == '\\' then '/' else c)))

/-- `rules.rs::is_hard_excluded`. -/
def is_hard_excluded (relPath : List Char) : Bool :=
  let normalized := normalize_key relPath
  normalized == ".git".toList || ".git/".toList.isPrefixOf normalized

/-- The constructed `RuleEngine`. The compiled `GlobSet`s are abstracted
as match predicates (`none` exactly when the pattern list was empty, as
in `compile_globset`); the extension lists are the already-normalised
sets from `normalize_extensions`; `manual` is the `BTreeMap` after
`normalize_manual_selections`, as a key-sorted association list; the
`ignore` crate's composed matcher is the abstract predicate
`gitignore abs isDir = true` iff `matched_path_or_any_parents` ignores. -/
structure RuleEngine where
  include_globs : Option (List Char → Bool)
  exclude_globs : Option (List Char → Bool)
  include_ext : List (List Char)
  exclude_ext : List (List Char)
  manual : List (List Char × ManualSelectionState)
  gitignore : Option (List Char → Bool → Bool)
  use_gitignore : Bool

/-- `RuleEngine::matches_include_glob`. -/
def matches_include_glob (eng : RuleEngine) (relPath : List Char) : Option Bool :=
  eng.include_globs.map (fun set => set relPath)

/-- `RuleEngine::matches_exclude_glob`. -/
def matches_exclude_glob (eng : RuleEngine) (relPath : List Char) : Bool :=
  match eng.exclude_globs with
  | some set => set relPath
  | none => false

/-- `RuleEngine::matches_include_extension`. -/
def matches_include_extension (eng : RuleEngine) (relPath : List Char) : Option Bool :=
  if eng.include_ext.isEmpty then none
  else some (eng.include_ext.any (fun ext => ext.isSuffixOf (lowerChars relPath)))

/-- `RuleEngine::matches_exclude_extension`. -/
def matches_exclude_extension (eng : RuleEngine) (relPath : List Char) : Bool :=
  if eng.exclude_ext.isEmpty then false
  else eng.exclude_ext.any (fun ext => ext.isSuffixOf (lowerChars relPath))

/-- The longest-prefix fold inside `manual_state_for` (`best`). -/
def manualBest (manual : List (List Char × ManualSelectionState)) (key : List Char) :
    Option (Nat × ManualSelectionState) :=
  manual.foldl (fun best kv =>
    if key == kv.1 || (kv.1.isPrefixOf key && key.get? kv.1.length == some '/') then
      match best with
      | some (bestScore, st) =>
        if kv.1.length ≤ bestScore then some (bestScore, st)
        else some (kv.1.length, kv.2)
      | none => some (kv.1.length, kv.2)
    else best) none

/-- `RuleEngine::manual_state_for`. -/
def manual_state_for (eng : RuleEngine) (relPath : List Char) : Option ManualSelectionState :=
  let key := normalize_key relPath
  match eng.manual.lookup key with
  | some state => some state
  | none => (manualBest eng.manual key).map (fun x => x.2)

/-- Tiers 3-9 of `should_include` (the code after the manual-override
early returns). -/
def rule_tiers (eng : RuleEngine) (relPath absPath : List Char) (isDir : Bool) : Decision :=
  let includeGlobMatch := matches_include_glob eng relPath
  if includeGlobMatch == some false then .Exclude
  else
    let includeExtMatch := if isDir then none else matches_include_extension eng relPath
    if includeExtMatch == some false then .Exclude
    else if includeGlobMatch == some true || includeExtMatch == some true then .Include
    else if !isDir && matches_exclude_extension eng relPath then .Exclude
    else if matches_exclude_glob eng relPath then .Exclude
    else if eng.use_gitignore then
      match eng.gitignore with
      | some gi => if gi absPath isDir then .Exclude else .Include
      | none => .Include
    else .Include

/-- `RuleEngine::should_include`. -/
def should_include (eng : RuleEngine) (relPath absPath : List Char) (isDir : Bool) : Decision :=
  if is_hard_excluded relPath then .Exclude
  else
    match manual_state_for eng relPath with
    | some .Include => .Include
    | some .Exclude => .Exclude
    | some .Inherit => rule_tiers eng relPath absPath isDir
    | none => rule_tiers eng relPath absPath isDir

/-! ## Filesystem snapshots and the selection walker
(`application/selection.rs`) -/

/-- A filesystem snapshot entry: the children lists carry whatever order
the OS would hand to the walker, which re-sorts them. -/
inductive FsEntry where
  | file (name : List Char) (content : List Nat)
  | dir (name : List Char) (children : List FsEntry)

def entryName : FsEntry → List Char
  | .file n _ => n
  | .dir n _ => n

def entryIsDir : FsEntry → Bool
  | .file _ _ => false
  | .dir _ _ => true

def entryKids : FsEntry → List FsEntry
  | .file _ _ => []
  | .dir _ cs => cs

def entryContent : FsEntry → List Nat
  | .file _ c => c
  | .dir _ _ => []

/-- `relative_unix_path` composition: POSIX join of parent and name. -/
def childRel (parentRel name : List Char) : List Char :=
  if parentRel.isEmpty then name else parentRel ++ '/' :: name

/-- Absolute path of a relative path under the canonical root. -/
def absOf (rootAbs rel : List Char) : List Char := rootAbs ++ '/' :: rel

/-- The `sort_by(compare_entries ...)` order of one directory level, on
the entries' absolute paths as in `collect_selected_files`. -/
def walkLe (rootAbs parentRel : List Char) (a b : FsEntry) : Bool :=
  compare_entries (absOf rootAbs (childRel parentRel (entryName a))) (entryIsDir a)
    (absOf rootAbs (childRel parentRel (entryName b))) (entryIsDir b) != Ordering.gt

def sortChildren (rootAbs parentRel : List Char) (cs : List FsEntry) : List FsEntry :=
  sortCmp (walkLe rootAbs parentRel) cs

/-- An entry yielded by the `WalkDir` iteration (root excluded). -/
structure WEntry where
  rel : List Char
  depth : Nat
  isDir : Bool
  hasKids : Bool
  content : List Nat
deriving DecidableEq, Repr

/-- Depth-first `WalkDir` traversal: each directory's entries sorted by
`compare_entries`, a directory yielded before its contents, and descent
stopping at `max_depth` (the fuel counts remaining depth budget). -/
def walkAt (rootAbs : List Char) : Nat → List Char → Nat → List FsEntry → List WEntry
  | 0, _, _, _ => []
  | fuel + 1, parentRel, depth, cs =>
    ((sortChildren rootAbs parentRel cs).map (fun c =>
      let rel := childRel parentRel (entryName c)
      (⟨rel, depth, entryIsDir c, !(entryKids c).isEmpty, entryContent c⟩ : WEntry) ::
        (if entryIsDir c then walkAt rootAbs fuel rel (depth + 1) (entryKids c) else []))).flatten

/-- All entries the walker yields below the root (the root itself is
skipped by `collect_selected_files`). -/
def walk_entries (rootAbs : List Char) (maxDepth : Nat)
    (rootChildren : List FsEntry) : List WEntry :=
  walkAt rootAbs maxDepth [] 1 rootChildren

/-- `ScanLimits`. -/
structure ScanLimits where
  maxFiles : Nat
  maxDepth : Nat
deriving DecidableEq, Repr

/-- Warnings and per-file notes (the formatted strings of the source,
abstracted to their kind and payload). -/
inductive Note where
  | maxDepthWarn (limit : Nat)
  | maxFilesWarn (limit : Nat)
  | skippedOpen (rel : List Char)
  | skippedBinary (rel : List Char)
  | skippedLarge (rel : List Char)
  | truncated (rel : List Char) (bytes : Nat)
deriving DecidableEq, Repr

/-- `SelectedFile` (with the snapshot's content attached; `size` is the
metadata length, i.e. the byte length of the content). -/
structure SelectedFile where
  rel : List Char
  size : Nat
  content : List Nat
deriving DecidableEq, Repr

structure SelState where
  files : List SelectedFile
  included : Nat
  excluded : Nat
  warnings : List Note
  depthWarned : Bool
deriving DecidableEq, Repr

/-- The entry loop of `collect_selected_files`. -/
def selLoop (rootAbs : List Char) (eng : RuleEngine) (limits : ScanLimits) :
    List WEntry → SelState → SelState
  | [], s => s
  | e :: rest, s =>
    let s :=
      if e.isDir = true ∧ e.depth ≥ limits.maxDepth ∧ s.depthWarned = false ∧ e.hasKids = true then
        { s with warnings := s.warnings ++ [Note.maxDepthWarn limits.maxDepth],
                 depthWarned := true }
      else s
    let decision := should_include eng e.rel (absOf rootAbs e.rel) e.isDir
    if e.isDir then
      -- the source tests `Decision::Exclude` here but `continue`s on both
      -- branches: an excluded directory does not prune its subtree
      selLoop rootAbs eng limits rest s
    else
      let s :=
        match decision with
        | .Include =>
          { s with files := s.files ++ [⟨e.rel, e.content.length, e.content⟩],
                   included := s.included + 1 }
        | .Exclude => { s with excluded := s.excluded + 1 }
      if s.included + s.excluded ≥ limits.maxFiles then
        { s with warnings := s.warnings ++ [Note.maxFilesWarn limits.maxFiles] }
      else selLoop rootAbs eng limits rest s

structure SelectionRun where
  files : List SelectedFile
  included : Nat
  excluded : Nat
  warnings : List Note
deriving DecidableEq, Repr

/-- The post-walk file sort of `collect_selected_files` (lines 92-101). -/
def file_sort_le (a b : SelectedFile) : Bool := ci_cmp a.rel b.rel != Ordering.gt

/-- `collect_selected_files` over a snapshot (gitignore build warnings
are abstracted into the engine's matcher and not re-emitted here). -/
def collect_selected_files (rootAbs : List Char) (eng : RuleEngine) (limits : ScanLimits)
    (rootChildren : List FsEntry) : SelectionRun :=
  let entries := walk_entries rootAbs limits.maxDepth rootChildren
  let s := selLoop rootAbs eng limits entries ⟨[], 0, 0, [], false⟩
  { files := sortCmp file_sort_le s.files, included := s.included,
    excluded := s.excluded, warnings := s.warnings }

/-! ## The structure block (`exporter.rs::build_structure_lines`) -/

/-- `str::split('/')`. -/
def splitSlash : List Char → List (List Char)
  | [] => [[]]
  | c :: rest =>
    if c = '/' then [] :: splitSlash rest
    else
      match splitSlash rest with
      | [] => [[c]]
      | p :: ps => (c :: p) :: ps

/-- Join path components with `/`. -/
def joinSlash : List (List Char) → List Char
  | [] => []
  | [p] => p
  | p :: ps => p ++ '/' :: joinSlash ps

structure StructureEntry where
  path : List Char
  isDir : Bool
deriving DecidableEq, Repr

/-- The chain of ancestors built by the inner `for (index, part)` loop:
every strict prefix is a directory, the full path is a file. -/
def pathSteps (parts : List (List Char)) : List StructureEntry :=
  (List.range parts.length).map (fun i =>
    ⟨joinSlash (parts.take (i + 1)), i + 1 != parts.length⟩)

/-- The closure passed to `entries.sort_by` in `build_structure_lines`. -/
def structure_cmp (a b : StructureEntry) : Ordering :=
  match a.isDir, b.isDir with
  | true, false => .lt
  | false, true => .gt
  | _, _ => ci_cmp a.path b.path

/-- `build_structure_lines`: `.` plus all ancestor prefixes of the
selected files (first-seen insertion, `HashSet` dedup by path), sorted
directories-first / case-insensitively. -/
def build_structure_lines (rels : List (List Char)) : List (List Char) :=
  let entries :=
    rels.foldl (fun acc rel =>
      let parts := splitSlash rel
      if parts.isEmpty then acc
      else
        (pathSteps parts).foldl (fun acc2 e =>
          if acc2.any (fun x => x.path == e.path) then acc2 else acc2 ++ [e]) acc)
      [⟨".".toList, true⟩]
  (sortCmp (fun a b => structure_cmp a b != Ordering.gt) entries).map (fun e => e.path)

/-! ## The export loop (`exporter.rs::run_export`) -/

inductive LargeFileStrategy where
  | Truncate
  | Skip
deriving DecidableEq, Repr

/-- Fatal per-file errors (propagated with `?` in the source). -/
inductive ExpErr where
  | probeFailed (rel : List Char)
  | rewindFailed (rel : List Char)
deriving DecidableEq, Repr

/-- One selected file together with the outcome of its I/O operations
(`File::open`, the 1024-byte probe read, `rewind`); a pure snapshot file
has all failure flags `false` and probe bytes `content.take 1024`. -/
structure FileIo where
  rel : List Char
  size : Nat
  openFails : Bool
  probeFails : Bool
  rewindFails : Bool
  content : List Nat
deriving DecidableEq, Repr

structure ExpState where
  w : OutWriter
  exported : Nat
  skipped : Nat
  notes : List Note
deriving DecidableEq, Repr

def fileMarker (rel : List Char) : List Nat :=
  strBytes ("=== FILE: ".toList ++ rel ++ " ===".toList)

def endFileMarker (rel : List Char) : List Nat :=
  strBytes ("=== END FILE: ".toList ++ rel ++ " ===".toList)

def structureMarker : List Nat := strBytes "=== STRUCTURE ===".toList

def truncatedMarker (maxBytes : Nat) : List Nat :=
  strBytes ("[TRUNCATED at ".toList ++ Nat.toDigits 10 maxBytes ++ " bytes]".toList)

/-- The body of the per-file `for` loop in `run_export`:
open, probe + binary detection, rewind, skip policy, markers, streamed
body, truncation marker and note, counters. -/
def process_file (isBinary : List Nat → Bool) (strategy : LargeFileStrategy) (maxBytes : Nat)
    (f : FileIo) (st : ExpState) : Except ExpErr ExpState :=
  if f.openFails then
    .ok { st with skipped := st.skipped + 1, notes := st.notes ++ [Note.skippedOpen f.rel] }
  else if f.probeFails then .error (ExpErr.probeFailed f.rel)
  else if isBinary (f.content.take 1024) then
    .ok { st with skipped := st.skipped + 1, notes := st.notes ++ [Note.skippedBinary f.rel] }
  else if f.rewindFails then .error (ExpErr.rewindFailed f.rel)
  else if strategy = .Skip ∧ f.size > maxBytes then
    .ok { st with skipped := st.skipped + 1, notes := st.notes ++ [Note.skippedLarge f.rel] }
  else
    let w1 := write_line st.w (fileMarker f.rel)
    if strategy = .Truncate ∧ f.size > maxBytes then
      let res := write_file_content_streaming w1 f.content (some maxBytes) []
      let w2 := write_newline res.1
      let w3 := write_line w2 (truncatedMarker maxBytes)
      let w4 := write_line w3 (endFileMarker f.rel)
      let w5 := write_line w4 []
      .ok { w := w5, exported := st.exported + 1, skipped := st.skipped,
            notes := st.notes ++ [Note.truncated f.rel maxBytes] }
    else
      let res := write_file_content_streaming w1 f.content none []
      let w2 := write_newline res.1
      let w3 := write_line w2 (endFileMarker f.rel)
      let w4 := write_line w3 []
      .ok { w := w4, exported := st.exported + 1, skipped := st.skipped,
            notes := st.notes }

/-- The whole per-file loop. -/
def run_export_files (isBinary : List Nat → Bool) (strategy : LargeFileStrategy)
    (maxBytes : Nat) : List FileIo → ExpState → Except ExpErr ExpState
  | [], st => .ok st
  | f :: fs, st =>
    match process_file isBinary strategy maxBytes f st with
    | .error e => .error e
    | .ok st' => run_export_files isBinary strategy maxBytes fs st'

/-- `run_export` from the structure block on (output-path validation and
the surrounding selection happen before this point). -/
def run_export_model (isBinary : List Nat → Bool) (strategy : LargeFileStrategy)
    (maxFileSizeKb : Nat) (files : List FileIo) (initialNotes : List Note) :
    Except ExpErr ExpState :=
  let w0 := write_line ⟨[], 0⟩ structureMarker
  let w1 := (build_structure_lines (files.map (fun f => f.rel))).foldl
      (fun w line => write_line w (strBytes line)) w0
  let w2 := write_line w1 []
  let maxBytes := satMul maxFileSizeKb 1024
  run_export_files isBinary strategy maxBytes files ⟨w2, 0, 0, initialNotes⟩

/-- The request-scoped configuration entering an export. -/
structure Config where
  rootAbs : List Char
  engine : RuleEngine
  strategy : LargeFileStrategy
  maxFileSizeKb : Nat

def pureIo (f : SelectedFile) : FileIo := ⟨f.rel, f.size, false, false, false, f.content⟩

/-- A full `run_export`: selection over the snapshot, then the writing
pipeline. The result carries the complete output-file bytes. -/
def export_run (isBinary : List Nat → Bool) (cfg : Config) (limits : ScanLimits)
    (rootChildren : List FsEntry) : Except ExpErr ExpState :=
  let sel := collect_selected_files cfg.rootAbs cfg.engine limits rootChildren
  run_export_model isBinary cfg.strategy cfg.maxFileSizeKb (sel.files.map pureIo) sel.warnings

/-! ## Canonical snapshots (for the determinism claim) -/

/-- No duplicate names (well-formed directory listing). -/
def nodupKeys : List (List Char) → Bool
  | [] => true
  | n :: ns => !(ns.contains n) && nodupKeys ns

mutual
/-- Well-formedness of a snapshot entry: sibling names are distinct at
every level. -/
def wfEntry : FsEntry → Bool
  | .file _ _ => true
  | .dir _ cs => nodupKeys (cs.map entryName) && wfAll cs
def wfAll : List FsEntry → Bool
  | [] => true
  | c :: cs => wfEntry c && wfAll cs
end

/-- Well-formedness of a snapshot (list of root children). -/
def wfForest (cs : List FsEntry) : Bool := nodupKeys (cs.map entryName) && wfAll cs

/-- Name order used only to canonicalise snapshots. -/
def nameLe (a b : FsEntry) : Bool := cmpChars (entryName a) (entryName b) != Ordering.gt

mutual
/-- Canonical form: children sorted by name at every level. Two
snapshots with the same canonical form are the same filesystem state up
to the (OS-dependent) order in which directory entries are returned. -/
def canonEntry : FsEntry → FsEntry
  | .file n c => .file n c
  | .dir n cs => .dir n (sortCmp nameLe (canonList cs))
def canonList : List FsEntry → List FsEntry
  | [] => []
  | c :: cs => canonEntry c :: canonList cs
end

def canonForest (cs : List FsEntry) : List FsEntry := sortCmp nameLe (canonList cs)

/-- The invariant claimed for the carried UTF-8 tail: strictly an
incomplete sequence, shorter than 4 bytes. -/
def tailInv (tail : List Nat) : Bool :=
  decide (tail.length < 4) && (tail.isEmpty || utf8Err tail == some (0, none))

/-! ## Concrete instances used by individual claims -/

/-- An engine whose manual selections map `.git/config` to `Include`. -/
def c1Engine : RuleEngine :=
  ⟨none, none, [], [], [(".git/config".toList, ManualSelectionState.Include)], none, false⟩

/-- Include-glob semantics of `*.ts` (matches), include-extension set
`{.md}` (does not match `a.ts`): exhibits the include-extension tier
vetoing a path the include-glob tier matched. -/
def c2Engine : RuleEngine :=
  ⟨some (fun s => ".ts".toList.isSuffixOf s), none, [".md".toList], [], [], none, false⟩

/-- Exclude-glob semantics of the literal pattern `build` (matches the
directory itself, not its contents). -/
def c3Engine : RuleEngine :=
  ⟨none, some (fun s => s == "build".toList), [], [], [], none, false⟩

/-- A snapshot with an excluded directory containing one plain file. -/
def c3Tree : List FsEntry :=
  [.dir "build".toList [.file "app.txt".toList [104, 105]]]

/-- An engine with no rules at all (everything included). -/
def noRulesEngine : RuleEngine := ⟨none, none, [], [], [], none, false⟩

/-- Concrete inputs for the determinism claim: one directory whose two
files appear in the two OS listing orders. -/
def c7Cfg : Config := ⟨"r".toList, noRulesEngine, LargeFileStrategy.Truncate, 1⟩

def c7Tree1 : List FsEntry :=
  [.dir "d".toList [.file "b.txt".toList [66], .file "a.txt".toList [65]]]

def c7Tree2 : List FsEntry :=
  [.dir "d".toList [.file "a.txt".toList [65], .file "b.txt".toList [66]]]

/-- The §8 scenario snapshot: `a.txt`, `Beta.txt`, `ADir/a.txt`,
`bDir/z.txt`. -/
def c8Tree : List FsEntry :=
  [.file "a.txt".toList [97], .file "Beta.txt".toList [98],
   .dir "ADir".toList [.file "a.txt".toList [97]],
   .dir "bDir".toList [.file "z.txt".toList [122]]]

/-- The selected relative paths of the §8 scenario, in the walker's
post-sort order. -/
def c8Files : List (List Char) :=
  (collect_selected_files "r".toList noRulesEngine ⟨100000, 64⟩ c8Tree).files.map
    (fun f => f.rel)

/-!
# Theorems
-/

/-! ### UTF-8 validation facts shared by the streaming claims -/

theorem utf8_head_cases (b : Nat) (rest : List Nat) :
    (∃ pre suf, b :: rest = pre ++ suf ∧ 1 ≤ pre.length ∧
       utf8Err (b :: rest) = errShift pre.length (utf8Err suf) ∧
       utf8Lossy (b :: rest) = pre ++ utf8Lossy suf)
    ∨ (∃ pre suf, b :: rest = pre ++ suf ∧ 1 ≤ pre.length ∧
       utf8Err (b :: rest) = some (0, some pre.length) ∧
       utf8Lossy (b :: rest) = replacementBytes ++ utf8Lossy suf)
    ∨ (utf8Err (b :: rest) = some (0, none) ∧ (b :: rest).length ≤ 3 ∧
       utf8Lossy (b :: rest) = replacementBytes) := by
  by_cases hb1 : b ≤ 0x7F
  · refine Or.inl ⟨[b], rest, rfl, by simp, ?_, ?_⟩
    · conv_lhs => rw [utf8Err.eq_def]
      simp [hb1]
    · conv_lhs => rw [utf8Lossy.eq_def]
      simp [hb1]
  · by_cases hb2 : b < 0xC2
    · refine Or.inr (Or.inl ⟨[b], rest, rfl, by simp, ?_, ?_⟩)
      · conv_lhs => rw [utf8Err.eq_def]
        simp [hb1, hb2]
      · conv_lhs => rw [utf8Lossy.eq_def]
        simp [hb1, hb2]
    · by_cases hb3 : b ≤ 0xDF
      · match rest with
        | [] =>
          refine Or.inr (Or.inr ⟨?_, by simp, ?_⟩)
          · conv_lhs => rw [utf8Err.eq_def]
            simp [hb1, hb2, hb3]
          · conv_lhs => rw [utf8Lossy.eq_def]
            simp [hb1, hb2, hb3]
        | b2 :: rest2 =>
          by_cases hc2 : isCont b2 = true
          · refine Or.inl ⟨[b, b2], rest2, rfl, by simp, ?_, ?_⟩
            · conv_lhs => rw [utf8Err.eq_def]
              simp [hb1, hb2, hb3, hc2]
            · conv_lhs => rw [utf8Lossy.eq_def]
              simp [hb1, hb2, hb3, hc2]
          · refine Or.inr (Or.inl ⟨[b], (b2 :: rest2), rfl, by simp, ?_, ?_⟩)
            · conv_lhs => rw [utf8Err.eq_def]
              simp [hb1, hb2, hb3, hc2]
            · conv_lhs => rw [utf8Lossy.eq_def]
              simp [hb1, hb2, hb3, hc2]
      · by_cases hb4 : b ≤ 0xEF
        · match rest with
          | [] =>
            refine Or.inr (Or.inr ⟨?_, by simp, ?_⟩)
            · conv_lhs => rw [utf8Err.eq_def]
              simp [hb1, hb2, hb3, hb4]
            · conv_lhs => rw [utf8Lossy.eq_def]
              simp [hb1, hb2, hb3, hb4]
          | b2 :: rest2 =>
            by_cases h32 : utf8Second3Ok b b2 = true
            · match rest2 with
              | [] =>
                refine Or.inr (Or.inr ⟨?_, by simp, ?_⟩)
                · conv_lhs => rw [utf8Err.eq_def]
                  simp [hb1, hb2, hb3, hb4, h32]
                · conv_lhs => rw [utf8Lossy.eq_def]
                  simp [hb1, hb2, hb3, hb4, h32]
              | b3 :: rest3 =>
                by_cases hc3 : isCont b3 = true
                · refine Or.inl ⟨[b, b2, b3], rest3, rfl, by simp, ?_, ?_⟩
                  · conv_lhs => rw [utf8Err.eq_def]
                    simp [hb1, hb2, hb3, hb4, h32, hc3]
                  · conv_lhs => rw [utf8Lossy.eq_def]
                    simp [hb1, hb2, hb3, hb4, h32, hc3]
                · refine Or.inr (Or.inl ⟨[b, b2], (b3 :: rest3), rfl, by simp, ?_, ?_⟩)
                  · conv_lhs => rw [utf8Err.eq_def]
                    simp [hb1, hb2, hb3, hb4, h32, hc3]
                  · conv_lhs => rw [utf8Lossy.eq_def]
                    simp [hb1, hb2, hb3, hb4, h32, hc3]
            · refine Or.inr (Or.inl ⟨[b], (b2 :: rest2), rfl, by simp, ?_, ?_⟩)
              · conv_lhs => rw [utf8Err.eq_def]
                simp [hb1, hb2, hb3, hb4, h32]
              · conv_lhs => rw [utf8Lossy.eq_def]
                simp [hb1, hb2, hb3, hb4, h32]
        · by_cases hb5 : b ≤ 0xF4
          · match rest with
            | [] =>
              refine Or.inr (Or.inr ⟨?_, by simp, ?_⟩)
              · conv_lhs => rw [utf8Err.eq_def]
                simp [hb1, hb2, hb3, hb4, hb5]
              · conv_lhs => rw [utf8Lossy.eq_def]
                simp [hb1, hb2, hb3, hb4, hb5]
            | b2 :: rest2 =>
              by_cases h42 : utf8Second4Ok b b2 = true
              · match rest2 with
                | [] =>
                  refine Or.inr (Or.inr ⟨?_, by simp, ?_⟩)
                  · conv_lhs => rw [utf8Err.eq_def]
                    simp [hb1, hb2, hb3, hb4, hb5, h42]
                  · conv_lhs => rw [utf8Lossy.eq_def]
                    simp [hb1, hb2, hb3, hb4, hb5, h42]
                | b3 :: rest3 =>
                  by_cases hc3 : isCont b3 = true
                  · match rest3 with
                    | [] =>
                      refine Or.inr (Or.inr ⟨?_, by simp, ?_⟩)
                      · conv_lhs => rw [utf8Err.eq_def]
                        simp [hb1, hb2, hb3, hb4, hb5, h42, hc3]
                      · conv_lhs => rw [utf8Lossy.eq_def]
                        simp [hb1, hb2, hb3, hb4, hb5, h42, hc3]
                    | b4 :: rest4 =>
                      by_cases hc4 : isCont b4 = true
                      · refine Or.inl ⟨[b, b2, b3, b4], rest4, rfl, by simp, ?_, ?_⟩
                        · conv_lhs => rw [utf8Err.eq_def]
                          simp [hb1, hb2, hb3, hb4, hb5, h42, hc3, hc4]
                        · conv_lhs => rw [utf8Lossy.eq_def]
                          simp [hb1, hb2, hb3, hb4, hb5, h42, hc3, hc4]
                      · refine Or.inr (Or.inl ⟨[b, b2, b3], (b4 :: rest4), rfl, by simp, ?_, ?_⟩)
                        · conv_lhs => rw [utf8Err.eq_def]
                          simp [hb1, hb2, hb3, hb4, hb5, h42, hc3, hc4]
                        · conv_lhs => rw [utf8Lossy.eq_def]
                          simp [hb1, hb2, hb3, hb4, hb5, h42, hc3, hc4]
                  · refine Or.inr (Or.inl ⟨[b, b2], (b3 :: rest3), rfl, by simp, ?_, ?_⟩)
                    · conv_lhs => rw [utf8Err.eq_def]
                      simp [hb1, hb2, hb3, hb4, hb5, h42, hc3]
                    · conv_lhs => rw [utf8Lossy.eq_def]
                      simp [hb1, hb2, hb3, hb4, hb5, h42, hc3]
              · refine Or.inr (Or.inl ⟨[b], (b2 :: rest2), rfl, by simp, ?_, ?_⟩)
                · conv_lhs => rw [utf8Err.eq_def]
                  simp [hb1, hb2, hb3, hb4, hb5, h42]
                · conv_lhs => rw [utf8Lossy.eq_def]
                  simp [hb1, hb2, hb3, hb4, hb5, h42]
          · refine Or.inr (Or.inl ⟨[b], rest, rfl, by simp, ?_, ?_⟩)
            · conv_lhs => rw [utf8Err.eq_def]
              simp [hb1, hb2, hb3, hb4, hb5]
            · conv_lhs => rw [utf8Lossy.eq_def]
              simp [hb1, hb2, hb3, hb4, hb5]



theorem utf8Err_drop_aux :
    ∀ (n : Nat) (l : List Nat), l.length ≤ n → ∀ v e,
      utf8Err l = some (v, e) → utf8Err (l.drop v) = some (0, e) := by
  intro n
  induction n with
  | zero =>
    intro l hl v e he
    have : l = [] := List.eq_nil_of_length_eq_zero (Nat.le_zero.mp hl)
    subst this
    simp [utf8Err] at he
  | succ n ih =>
    intro l hl v e he
    match l with
    | [] => simp [utf8Err] at he
    | b :: rest =>
      rcases utf8_head_cases b rest with
        ⟨pre, suf, heq, hlen, herr, _⟩ | ⟨pre, suf, heq, hlen, herr, _⟩ | ⟨herr, hlen3, _⟩
      · rw [herr] at he
        cases hsuf : utf8Err suf with
        | none => rw [hsuf] at he; simp [errShift] at he
        | some p =>
          obtain ⟨v', e'⟩ := p
          rw [hsuf] at he
          simp only [errShift, Option.some.injEq, Prod.mk.injEq] at he
          obtain ⟨hv, he'⟩ := he
          subst he'
          have hsume : suf.length ≤ n := by
            have hlc := congrArg List.length heq
            simp only [List.length_cons, List.length_append] at hlc hl
            omega
          have hdrop : (b :: rest).drop v = suf.drop v' := by
            rw [heq, ← hv, Nat.add_comm v' pre.length, ← List.drop_drop, List.drop_left]
          rw [hdrop]
          exact ih suf hsume v' _ hsuf
      · have h2 := he.symm.trans herr
        simp only [Option.some.injEq, Prod.mk.injEq] at h2
        obtain ⟨rfl, rfl⟩ := h2
        simpa using herr
      · have h2 := he.symm.trans herr
        simp only [Option.some.injEq, Prod.mk.injEq] at h2
        obtain ⟨rfl, rfl⟩ := h2
        simpa using herr

theorem utf8Err_drop (l : List Nat) (v : Nat) (e : Option Nat)
    (he : utf8Err l = some (v, e)) : utf8Err (l.drop v) = some (0, e) :=
  utf8Err_drop_aux l.length l (le_refl _) v e he

theorem utf8Err_incomplete_len_aux :
    ∀ (n : Nat) (l : List Nat), l.length ≤ n → ∀ v,
      utf8Err l = some (v, none) → l.length ≤ v + 3 := by
  intro n
  induction n with
  | zero =>
    intro l hl v he
    omega
  | succ n ih =>
    intro l hl v he
    match l with
    | [] => simp [utf8Err] at he
    | b :: rest =>
      rcases utf8_head_cases b rest with
        ⟨pre, suf, heq, hlen, herr, _⟩ | ⟨pre, suf, heq, hlen, herr, _⟩ | ⟨herr, hlen3, _⟩
      · rw [herr] at he
        cases hsuf : utf8Err suf with
        | none => rw [hsuf] at he; simp [errShift] at he
        | some p =>
          obtain ⟨v', e'⟩ := p
          rw [hsuf] at he
          simp only [errShift, Option.some.injEq, Prod.mk.injEq] at he
          obtain ⟨hv, he'⟩ := he
          subst he'
          have hlc := congrArg List.length heq
          simp only [List.length_cons, List.length_append] at hlc hl
          have hsuf_le : suf.length ≤ n := by omega
          have := ih suf hsuf_le v' hsuf
          simp only [List.length_cons]
          omega
      · rw [herr] at he
        simp at he
      · have h2 := he.symm.trans herr
        simp only [Option.some.injEq, Prod.mk.injEq] at h2
        obtain ⟨rfl, -⟩ := h2
        omega

theorem utf8Err_incomplete_len (l : List Nat) (v : Nat)
    (he : utf8Err l = some (v, none)) : l.length ≤ v + 3 :=
  utf8Err_incomplete_len_aux l.length l (le_refl _) v he

theorem utf8Lossy_mem_aux :
    ∀ (n : Nat) (l : List Nat), l.length ≤ n → ∀ x,
      x ∈ utf8Lossy l → x ∈ l ∨ x ∈ replacementBytes := by
  intro n
  induction n with
  | zero =>
    intro l hl x hx
    have : l = [] := List.eq_nil_of_length_eq_zero (Nat.le_zero.mp hl)
    subst this
    simp [utf8Lossy] at hx
  | succ n ih =>
    intro l hl x hx
    match l with
    | [] => simp [utf8Lossy] at hx
    | b :: rest =>
      rcases utf8_head_cases b rest with
        ⟨pre, suf, heq, hlen, _, hlossy⟩ | ⟨pre, suf, heq, hlen, _, hlossy⟩ |
        ⟨_, _, hlossy⟩
      · rw [hlossy] at hx
        have hsuf_le : suf.length ≤ n := by
          have hlc := congrArg List.length heq
          simp only [List.length_cons, List.length_append] at hlc hl
          omega
        rcases List.mem_append.mp hx with hx | hx
        · exact Or.inl (by rw [heq]; exact List.mem_append.mpr (Or.inl hx))
        · rcases ih suf hsuf_le x hx with hx' | hx'
          · exact Or.inl (by rw [heq]; exact List.mem_append.mpr (Or.inr hx'))
          · exact Or.inr hx'
      · rw [hlossy] at hx
        have hsuf_le : suf.length ≤ n := by
          have hlc := congrArg List.length heq
          simp only [List.length_cons, List.length_append] at hlc hl
          omega
        rcases List.mem_append.mp hx with hx | hx
        · exact Or.inr hx
        · rcases ih suf hsuf_le x hx with hx' | hx'
          · exact Or.inl (by rw [heq]; exact List.mem_append.mpr (Or.inr hx'))
          · exact Or.inr hx'
      · rw [hlossy] at hx
        exact Or.inr hx

theorem utf8Lossy_mem (l : List Nat) (x : Nat) (hx : x ∈ utf8Lossy l) :
    x ∈ l ∨ x ∈ replacementBytes :=
  utf8Lossy_mem_aux l.length l (le_refl _) x hx

theorem utf8Lossy_incomplete (l : List Nat) (he : utf8Err l = some (0, none)) :
    utf8Lossy l = replacementBytes := by
  match l with
  | [] => simp [utf8Err] at he
  | b :: rest =>
    rcases utf8_head_cases b rest with
      ⟨pre, suf, heq, hlen, herr, _⟩ | ⟨pre, suf, heq, hlen, herr, _⟩ | ⟨herr, _, hlossy⟩
    · rw [herr] at he
      cases hsuf : utf8Err suf with
      | none => rw [hsuf] at he; simp [errShift] at he
      | some p =>
        obtain ⟨v', e'⟩ := p
        rw [hsuf] at he
        simp only [errShift, Option.some.injEq, Prod.mk.injEq] at he
        omega
    · rw [herr] at he
      simp at he
    · exact hlossy

/-! ### C1: hard-exclusion of `.git` beats everything -/

/-- Claim C1: for every configuration and every relative path whose
normalised form equals `.git` or begins with `.git/`, `should_include`
returns `Exclude` — even when a manual selection maps that path or a
prefix of it to `Include` (the quantification over `eng` covers every
manual-selection map). -/
theorem c1_hard_exclude_wins (eng : RuleEngine) (relPath absPath : List Char) (isDir : Bool)
    (h : normalize_key relPath = ".git".toList ∨
      ".git/".toList.isPrefixOf (normalize_key relPath) = true) :
    should_include eng relPath absPath isDir = Decision.Exclude := by
  have hh : is_hard_excluded relPath = true := by
    unfold is_hard_excluded
    dsimp only
    rcases h with h | h
    · simp [h]
    · rw [h]
      simp
  unfold should_include
  simp [hh]

/-- Witness for C1: the manual `Include` on `.git/config` itself. -/
theorem c1_hard_exclude_wins_witness :
    (normalize_key ".git/config".toList = ".git".toList ∨
      ".git/".toList.isPrefixOf (normalize_key ".git/config".toList) = true) ∧
    should_include c1Engine ".git/config".toList "root/.git/config".toList false =
      Decision.Exclude :=
  ⟨Or.inr (by decide),
    c1_hard_exclude_wins c1Engine ".git/config".toList "root/.git/config".toList false
      (Or.inr (by decide))⟩

/-! ### C2: include rules are authoritative — but each include tier can
also veto -/

/-- Counterexample to C2 as stated: `a.ts` is not hard-excluded, has no
manual state, and matches the non-empty include-glob set, yet
`should_include` returns `Exclude`, because the non-empty
include-extension set (`{.md}`) does not match and tier 4 rejects before
tier 5 can accept. -/
theorem c2_counterexample :
    is_hard_excluded "a.ts".toList = false ∧
    manual_state_for c2Engine "a.ts".toList = none ∧
    matches_include_glob c2Engine "a.ts".toList = some true ∧
    should_include c2Engine "a.ts".toList "root/a.ts".toList false = Decision.Exclude := by
  refine ⟨by decide, by decide, by decide, by decide⟩

/-- Claim C2 (amended): in a configuration where the path is not
hard-excluded and the manual lookup yields neither `Include` nor
`Exclude`, if the path additionally survives both include tiers (the
include-glob set is empty or matches; the include-extension tier is
skipped for directories, empty, or matches) and at least one of the two
tiers matched, then `should_include` returns `Include`, regardless of
any exclude extension, exclude glob, or gitignore match. -/
theorem c2_include_rules_win (eng : RuleEngine) (relPath absPath : List Char) (isDir : Bool)
    (h1 : is_hard_excluded relPath = false)
    (h2 : manual_state_for eng relPath = none ∨
      manual_state_for eng relPath = some ManualSelectionState.Inherit)
    (h3 : matches_include_glob eng relPath ≠ some false)
    (h4 : (if isDir then none else matches_include_extension eng relPath) ≠ some false)
    (h5 : matches_include_glob eng relPath = some true ∨
      (isDir = false ∧ matches_include_extension eng relPath = some true)) :
    should_include eng relPath absPath isDir = Decision.Include := by
  have tiers : rule_tiers eng relPath absPath isDir = Decision.Include := by
    unfold rule_tiers
    rcases h5 with h5 | ⟨hd, h5⟩
    · simp only [h5]
      have h4' : (if isDir then none else matches_include_extension eng relPath) ≠ some false :=
        h4
      rcases hx : (if isDir then none else matches_include_extension eng relPath) with _ | b
      · simp
      · rcases b with _ | _
        · exact absurd hx h4'
        · simp [hx]
    · rcases hg : matches_include_glob eng relPath with _ | b
      · simp [hd, h5, hg]
      · rcases b with _ | _
        · exact absurd hg h3
        · simp [hd, h5, hg]
  unfold should_include
  rcases h2 with h2 | h2 <;> simp [h1, h2, tiers]

/-- Witness for C2 (amended): include-glob `*.ts`, exclude-extension
`.ts`, gitignore matching everything — `kept.ts` is still included. -/
theorem c2_include_rules_win_witness :
    (is_hard_excluded "kept.ts".toList = false ∧
      manual_state_for
        ⟨some (fun s => ".ts".toList.isSuffixOf s), some (fun _ => true), [],
          [".ts".toList], [], some (fun _ _ => true), true⟩ "kept.ts".toList = none) ∧
    should_include
      ⟨some (fun s => ".ts".toList.isSuffixOf s), some (fun _ => true), [],
        [".ts".toList], [], some (fun _ _ => true), true⟩
      "kept.ts".toList "root/kept.ts".toList false = Decision.Include :=
  ⟨⟨by decide, by decide⟩,
    c2_include_rules_win
      ⟨some (fun s => ".ts".toList.isSuffixOf s), some (fun _ => true), [],
        [".ts".toList], [], some (fun _ _ => true), true⟩
      "kept.ts".toList "root/kept.ts".toList false (by decide) (Or.inl (by decide))
      (by decide) (by decide) (Or.inl (by decide))⟩

/-! ### C3: an excluded directory is NOT pruned by the walker -/

/-- C3 (code bug): the rule engine returns `Exclude` for the directory
`build`, yet the walker still descends into it: `build/app.txt` is
returned in the file list and counted as included, because the source's
directory branch `continue`s without calling `skip_current_dir`. -/
theorem c3_excluded_dir_not_pruned :
    should_include c3Engine "build".toList "r/build".toList true = Decision.Exclude ∧
    (collect_selected_files "r".toList c3Engine ⟨100000, 64⟩ c3Tree).files.map
        (fun f => f.rel) = ["build/app.txt".toList] ∧
    (collect_selected_files "r".toList c3Engine ⟨100000, 64⟩ c3Tree).included = 1 := by
  refine ⟨by decide, by decide, by decide⟩

/-! ### C8: the structure block order -/

/-- Counterexample to C8 as stated: the claimed listing
`. ADir bDir ADir/a.txt Beta.txt a.txt bDir/z.txt` is the
case-SENSITIVE file order; the code sorts files case-insensitively, so
`build_structure_lines` does not produce it. -/
theorem c8_counterexample :
    build_structure_lines c8Files ≠
      [".".toList, "ADir".toList, "bDir".toList, "ADir/a.txt".toList,
        "Beta.txt".toList, "a.txt".toList, "bDir/z.txt".toList] := by
  decide

/-- Claim C8 (amended): for the §8 root (files `a.txt`, `Beta.txt`,
`ADir/a.txt`, `bDir/z.txt`, all selected) the structure block lists,
after the `=== STRUCTURE ===` line, exactly `.`, `ADir`, `bDir`,
`a.txt`, `ADir/a.txt`, `bDir/z.txt`, `Beta.txt` in that order —
directories before files, then case-insensitive path comparison with
case-sensitive tiebreak. -/
theorem c8_structure_order :
    build_structure_lines c8Files =
      [".".toList, "ADir".toList, "bDir".toList, "a.txt".toList,
        "ADir/a.txt".toList, "bDir/z.txt".toList, "Beta.txt".toList] := by
  decide

/-! ### Shared streaming lemmas and the streaming claims -/

theorem repl_no_cr : ∀ x ∈ replacementBytes, x ≠ 13 := by decide

theorem seg_tailInv (w : OutWriter) (segment tail : List Nat) (h : tailInv tail = true) :
    tailInv (write_utf8_lossy_segment w segment tail).2 = true := by
  unfold write_utf8_lossy_segment
  by_cases hseg : segment.isEmpty
  · simp [hseg, h]
  · simp only [hseg, Bool.false_eq_true, if_false]
    cases he : utf8Err (tail ++ segment) with
    | none =>
      simp [he, List.drop_length, tailInv]
    | some p =>
      obtain ⟨v, e⟩ := p
      cases e with
      | none =>
        simp only [he]
        have hlen := utf8Err_incomplete_len _ _ he
        simp only [List.length_append] at hlen
        have hdrop := utf8Err_drop _ _ _ he
        unfold tailInv
        simp [List.length_drop, hdrop]
        omega
      | some k =>
        simp [he, List.drop_length, tailInv]

theorem raw_incomplete (w : OutWriter) (tail : List Nat)
    (h : utf8Err tail = some (0, none)) :
    (write_utf8_lossy_raw w tail).out = w.out ++ replacementBytes := by
  have hne : tail ≠ [] := by
    intro hnil
    rw [hnil] at h
    simp [utf8Err] at h
  unfold write_utf8_lossy_raw
  rw [if_neg (by simpa using hne)]
  rw [utf8Lossy_incomplete tail h]
  rfl

theorem normCore_no_cr (input : List Nat) : ∀ x ∈ (normCore input).1, x ≠ 13 := by
  induction input using normCore.induct with
  | case1 => simp [normCore]
  | case2 => simp [normCore]
  | case3 rest ih =>
    intro x hx
    simp only [normCore] at hx
    rcases List.mem_cons.mp hx with rfl | hx
    · omega
    · exact ih x hx
  | case4 b rest hb ih =>
    intro x hx
    simp only [normCore] at hx
    rcases List.mem_cons.mp hx with rfl | hx
    · omega
    · exact ih x hx
  | case5 b rest h1 h2 h3 ih =>
    intro x hx
    have hb : b ≠ 13 := by
      intro rfl'
      subst rfl'
      match rest, h1, h2, h3 with
      | [], h1, _, _ => exact h1 rfl rfl
      | y :: ys, _, _, h3 => exact h3 y ys rfl rfl
    simp only [normCore] at hx
    rcases List.mem_cons.mp hx with rfl | hx
    · exact hb
    · exact ih x hx

theorem norm_bytes_no_cr (input : List Nat) (pending : Bool) :
    ∀ x ∈ (normalize_newline_bytes input pending).1, x ≠ 13 := by
  unfold normalize_newline_bytes
  cases pending with
  | false => simpa using normCore_no_cr input
  | true =>
    simp only [if_pos]
    intro x hx
    split at hx
    all_goals rcases List.mem_cons.mp hx with rfl | hx
    all_goals first
      | omega
      | exact normCore_no_cr _ x hx

theorem spec_crlf (l : List Nat) :
    specNormalizeCrlf (13 :: 10 :: l) = 10 :: specNormalizeCrlf l := rfl

theorem spec_cr (b : Nat) (l : List Nat) (hb : b ≠ 10) :
    specNormalizeCrlf (13 :: b :: l) = 10 :: specNormalizeCrlf (b :: l) := by
  conv_lhs => rw [specNormalizeCrlf.eq_def]
  split <;> simp_all

theorem spec_plain (b : Nat) (l : List Nat) (hb : b ≠ 13) :
    specNormalizeCrlf (b :: l) = b :: specNormalizeCrlf l := by
  conv_lhs => rw [specNormalizeCrlf.eq_def]
  split <;> simp_all

theorem normCore_spec (input : List Nat) :
    ∀ z, specNormalizeCrlf (input ++ z) =
      (normCore input).1 ++
        specNormalizeCrlf ((if (normCore input).2 then [13] else []) ++ z) := by
  induction input using normCore.induct with
  | case1 => intro z; simp [normCore]
  | case2 => intro z; simp [normCore]
  | case3 rest ih =>
    intro z
    simp only [List.cons_append]
    rw [spec_crlf, ih z]
    simp [normCore, List.cons_append]
  | case4 b rest hb ih =>
    intro z
    have hb' : b ≠ 10 := fun h => hb h
    simp only [List.cons_append]
    rw [spec_cr b (rest ++ z) hb']
    rw [← List.cons_append b rest z, ih z]
    simp [normCore, List.cons_append]
  | case5 b rest h1 h2 h3 ih =>
    intro z
    have hb : b ≠ 13 := by
      intro heq
      subst heq
      match rest, h1, h2, h3 with
      | [], h1, _, _ => exact h1 rfl rfl
      | y :: ys, _, _, h3 => exact h3 y ys rfl rfl
    simp only [List.cons_append]
    rw [spec_plain b (rest ++ z) hb]
    rw [ih z]
    simp [normCore, List.cons_append]

theorem norm_bytes_not_pending (input : List Nat) :
    normalize_newline_bytes input false = normCore input := rfl

theorem norm_bytes_pending_lf (rest : List Nat) :
    normalize_newline_bytes (10 :: rest) true =
      (10 :: (normCore rest).1, (normCore rest).2) := rfl

theorem norm_bytes_pending (b : Nat) (rest : List Nat) (hb : b ≠ 10) :
    normalize_newline_bytes (b :: rest) true =
      (10 :: (normCore (b :: rest)).1, (normCore (b :: rest)).2) := by
  unfold normalize_newline_bytes
  simp only [if_pos]
  split
  · rename_i rest' heq
    rw [List.cons.injEq] at heq
    exact absurd heq.1 hb
  · rfl

theorem norm_bytes_spec (input : List Nat) (hne : input ≠ []) (pending : Bool) :
    ∀ z, specNormalizeCrlf ((if pending then [13] else []) ++ (input ++ z)) =
      (normalize_newline_bytes input pending).1 ++
        specNormalizeCrlf
          ((if (normalize_newline_bytes input pending).2 then [13] else []) ++ z) := by
  intro z
  cases pending with
  | false =>
    rw [norm_bytes_not_pending]
    simpa using normCore_spec input z
  | true =>
    match input, hne with
    | 10 :: rest, _ =>
      rw [norm_bytes_pending_lf]
      simp only [if_true, List.singleton_append, List.cons_append, List.nil_append]
      rw [spec_crlf, normCore_spec rest z]
    | b :: rest, hne' =>
      by_cases hb : b = 10
      · subst hb
        rw [norm_bytes_pending_lf]
        simp only [if_true, List.singleton_append, List.cons_append, List.nil_append]
        rw [spec_crlf, normCore_spec rest z]
      · rw [norm_bytes_pending b rest hb]
        simp only [if_true, List.singleton_append, List.cons_append, List.nil_append]
        rw [spec_cr b (rest ++ z) hb, ← List.cons_append b rest z,
          normCore_spec (b :: rest) z]

theorem normStream_spec (chunks : List (List Nat)) :
    ∀ pending, (∀ c ∈ chunks, c ≠ []) →
      specNormalizeCrlf ((if pending then [13] else []) ++ chunks.flatten) =
        (normStream chunks pending).1 ++
          (if (normStream chunks pending).2 then [10] else []) := by
  induction chunks with
  | nil =>
    intro pending _
    cases pending <;> simp [normStream, specNormalizeCrlf]
  | cons c cs ih =>
    intro pending hne
    have hc : c ≠ [] := hne c (List.mem_cons_self c cs)
    have hcs : ∀ x ∈ cs, x ≠ [] := fun x hx => hne x (List.mem_cons_of_mem c hx)
    simp only [List.flatten_cons, normStream]
    rw [norm_bytes_spec c hc pending cs.flatten]
    rw [ih (normalize_newline_bytes c pending).2 hcs]
    simp [List.append_assoc]

theorem normStreamAll_spec (chunks : List (List Nat)) (hne : ∀ c ∈ chunks, c ≠ []) :
    normStreamAll chunks = specNormalizeCrlf chunks.flatten := by
  unfold normStreamAll
  have := normStream_spec chunks false hne
  simpa using this.symm

theorem raw_no_cr (w : OutWriter) (bytes : List Nat)
    (hw : ∀ x ∈ w.out, x ≠ 13) (hb : ∀ x ∈ bytes, x ≠ 13) :
    ∀ x ∈ (write_utf8_lossy_raw w bytes).out, x ≠ 13 := by
  unfold write_utf8_lossy_raw
  split
  · exact hw
  · intro x hx
    unfold pushBytes at hx
    simp only [List.mem_append] at hx
    rcases hx with hx | hx
    · exact hw x hx
    · rcases utf8Lossy_mem bytes x hx with h | h
      · exact hb x h
      · exact repl_no_cr x h

theorem seg_no_cr (w : OutWriter) (segment tail : List Nat)
    (hw : ∀ x ∈ w.out, x ≠ 13) (ht : ∀ x ∈ tail, x ≠ 13)
    (hs : ∀ x ∈ segment, x ≠ 13) :
    (∀ x ∈ (write_utf8_lossy_segment w segment tail).1.out, x ≠ 13) ∧
    (∀ x ∈ (write_utf8_lossy_segment w segment tail).2, x ≠ 13) := by
  unfold write_utf8_lossy_segment
  split
  · exact ⟨hw, ht⟩
  · have hmerged : ∀ x ∈ tail ++ segment, x ≠ 13 := by
      intro x hx
      rcases List.mem_append.mp hx with hx | hx
      · exact ht x hx
      · exact hs x hx
    constructor
    · exact raw_no_cr w _ hw (fun x hx => hmerged x (List.take_subset _ _ hx))
    · exact fun x hx => hmerged x (List.drop_subset _ _ hx)

theorem streamLoopF_zero (r : Option Nat) (content sched : List Nat) (st : StreamState) :
    streamLoopF 0 r content sched st = st := rfl

theorem streamLoopF_some_zero (n : Nat) (content sched : List Nat) (st : StreamState) :
    streamLoopF (n + 1) (some 0) content sched st = st := rfl

theorem streamLoopF_succ_none (n : Nat) (content sched : List Nat) (st : StreamState) :
    streamLoopF (n + 1) none content sched st =
      (let toRead := streamChunkSize
       let want := match sched with | [] => toRead | s :: _ => min s toRead
       let readLen := min want content.length
       if readLen = 0 then st
       else
         let chunk := content.take readLen
         let nres := normalize_newline_bytes chunk st.pending
         let seg := write_utf8_lossy_segment st.w nres.1 st.tail
         streamLoopF n none (content.drop readLen) sched.tail
           ⟨seg.1, nres.2, seg.2, st.consumed + readLen⟩) := rfl

theorem streamLoopF_succ_some (n m : Nat) (content sched : List Nat) (st : StreamState) :
    streamLoopF (n + 1) (some (m + 1)) content sched st =
      (let toRead := min (m + 1) streamChunkSize
       let want := match sched with | [] => toRead | s :: _ => min s toRead
       let readLen := min want content.length
       if readLen = 0 then st
       else
         let chunk := content.take readLen
         let nres := normalize_newline_bytes chunk st.pending
         let seg := write_utf8_lossy_segment st.w nres.1 st.tail
         streamLoopF n (some (m + 1 - readLen)) (content.drop readLen) sched.tail
           ⟨seg.1, nres.2, seg.2, st.consumed + readLen⟩) := rfl

theorem streamLoopF_no_cr :
    ∀ (fuel : Nat) (remaining : Option Nat) (content sched : List Nat) (st : StreamState),
      (∀ x ∈ st.w.out, x ≠ 13) → (∀ x ∈ st.tail, x ≠ 13) →
      (∀ x ∈ (streamLoopF fuel remaining content sched st).w.out, x ≠ 13) ∧
      (∀ x ∈ (streamLoopF fuel remaining content sched st).tail, x ≠ 13) := by
  intro fuel
  induction fuel with
  | zero =>
    intro r c s st h1 h2
    exact ⟨h1, h2⟩
  | succ n ih =>
    intro remaining content sched st h1 h2
    rcases remaining with _ | r
    · rw [streamLoopF_succ_none]
      dsimp only
      split
      · exact ⟨h1, h2⟩
      · exact ih _ _ _ _
          ((seg_no_cr st.w _ st.tail h1 h2 (norm_bytes_no_cr _ st.pending)).1)
          ((seg_no_cr st.w _ st.tail h1 h2 (norm_bytes_no_cr _ st.pending)).2)
    · rcases r with _ | m
      · rw [streamLoopF_some_zero]
        exact ⟨h1, h2⟩
      · rw [streamLoopF_succ_some]
        dsimp only
        split
        · exact ⟨h1, h2⟩
        · exact ih _ _ _ _
            ((seg_no_cr st.w _ st.tail h1 h2 (norm_bytes_no_cr _ st.pending)).1)
            ((seg_no_cr st.w _ st.tail h1 h2 (norm_bytes_no_cr _ st.pending)).2)

theorem stream_no_cr (content : List Nat) (maxBytes : Option Nat) (sched : List Nat) :
    ∀ x ∈ (write_file_content_streaming ⟨[], 0⟩ content maxBytes sched).1.out, x ≠ 13 := by
  obtain ⟨h1, h2⟩ := streamLoopF_no_cr content.length maxBytes content sched
    ⟨⟨[], 0⟩, false, [], 0⟩ (by simp) (by simp)
  unfold write_file_content_streaming
  set st := streamLoopF content.length maxBytes content sched ⟨⟨[], 0⟩, false, [], 0⟩ with hst
  dsimp only
  by_cases hp : st.pending = true
  · rw [if_pos hp]
    have hseg := seg_no_cr st.w [10] st.tail h1 h2 (by decide)
    dsimp only
    split
    · exact hseg.1
    · exact raw_no_cr _ _ hseg.1 hseg.2
  · rw [if_neg hp]
    split
    · exact h1
    · exact raw_no_cr _ _ h1 h2

theorem streamLoopF_consumed_le :
    ∀ (fuel m : Nat) (content sched : List Nat) (st : StreamState),
      (streamLoopF fuel (some m) content sched st).consumed ≤ st.consumed + m := by
  intro fuel
  induction fuel with
  | zero =>
    intro m c s st
    rw [streamLoopF_zero]
    omega
  | succ n ih =>
    intro m content sched st
    rcases m with _ | m'
    · rw [streamLoopF_some_zero]
      omega
    · rcases sched with _ | ⟨s, tl⟩
      · rw [streamLoopF_succ_some]
        dsimp only
        split
        · omega
        · refine le_trans (ih _ _ _ _) ?_
          dsimp only
          omega
      · rw [streamLoopF_succ_some]
        dsimp only
        split
        · omega
        · refine le_trans (ih _ _ _ _) ?_
          dsimp only
          omega

theorem streamLoopF_consumed_all :
    ∀ (fuel : Nat) (content : List Nat) (st : StreamState), content.length ≤ fuel →
      (streamLoopF fuel none content [] st).consumed = st.consumed + content.length := by
  intro fuel
  induction fuel with
  | zero =>
    intro content st hlen
    have : content = [] := List.eq_nil_of_length_eq_zero (Nat.le_zero.mp hlen)
    subst this
    rw [streamLoopF_zero]
    simp
  | succ n ih =>
    intro content st hlen
    rw [streamLoopF_succ_none]
    dsimp only
    split
    · rename_i h0
      have : content.length = 0 := by
        have := Nat.min_eq_zero_iff.mp h0
        rcases this with h | h
        · exact absurd h (by dsimp [streamChunkSize]; omega)
        · exact h
      have : content = [] := List.eq_nil_of_length_eq_zero this
      subst this
      simp
    · rename_i h0
      simp only [List.tail_nil]
      rw [ih]
      · dsimp only
        rw [List.length_drop]
        dsimp [streamChunkSize] at h0 ⊢
        omega
      · rw [List.length_drop]
        omega

theorem stream_consumed_le (w : OutWriter) (content : List Nat) (m : Nat) (sched : List Nat) :
    (write_file_content_streaming w content (some m) sched).2 ≤ m := by
  unfold write_file_content_streaming
  set st := streamLoopF content.length (some m) content sched ⟨w, false, [], 0⟩ with hst
  have h := streamLoopF_consumed_le content.length m content sched ⟨w, false, [], 0⟩
  dsimp only
  split
  · simpa using h
  · simpa using h

theorem stream_consumed_all (w : OutWriter) (content : List Nat) :
    (write_file_content_streaming w content none []).2 = content.length := by
  unfold write_file_content_streaming
  have h := streamLoopF_consumed_all content.length content ⟨w, false, [], 0⟩ (le_refl _)
  dsimp only
  split
  · simpa using h
  · simpa using h

theorem satAdd_min (L k : Nat) : satAdd (min L U64_MAX) k = min (L + k) U64_MAX := by
  unfold satAdd U64_MAX
  omega

theorem pushBytes_inv (w : OutWriter) (bytes : List Nat)
    (h : w.total = min w.out.length U64_MAX) :
    (pushBytes w bytes).total = min (pushBytes w bytes).out.length U64_MAX := by
  unfold pushBytes
  dsimp only
  rw [h, List.length_append]
  exact satAdd_min _ _

theorem raw_inv (w : OutWriter) (bytes : List Nat)
    (h : w.total = min w.out.length U64_MAX) :
    (write_utf8_lossy_raw w bytes).total =
      min (write_utf8_lossy_raw w bytes).out.length U64_MAX := by
  unfold write_utf8_lossy_raw
  split
  · exact h
  · exact pushBytes_inv w _ h

theorem seg_inv (w : OutWriter) (segment tail : List Nat)
    (h : w.total = min w.out.length U64_MAX) :
    (write_utf8_lossy_segment w segment tail).1.total =
      min (write_utf8_lossy_segment w segment tail).1.out.length U64_MAX := by
  unfold write_utf8_lossy_segment
  split
  · exact h
  · exact raw_inv w _ h

theorem write_newline_inv (w : OutWriter) (h : w.total = min w.out.length U64_MAX) :
    (write_newline w).total = min (write_newline w).out.length U64_MAX :=
  pushBytes_inv w [10] h

theorem write_line_inv (w : OutWriter) (line : List Nat)
    (h : w.total = min w.out.length U64_MAX) :
    (write_line w line).total = min (write_line w line).out.length U64_MAX :=
  write_newline_inv (pushBytes w line) (pushBytes_inv w line h)

theorem streamLoopF_inv :
    ∀ (fuel : Nat) (remaining : Option Nat) (content sched : List Nat) (st : StreamState),
      st.w.total = min st.w.out.length U64_MAX →
      (streamLoopF fuel remaining content sched st).w.total =
        min (streamLoopF fuel remaining content sched st).w.out.length U64_MAX := by
  intro fuel
  induction fuel with
  | zero => intro r c s st h; exact h
  | succ n ih =>
    intro remaining content sched st h
    rcases remaining with _ | r
    · rw [streamLoopF_succ_none]
      dsimp only
      split
      · exact h
      · exact ih _ _ _ _ (seg_inv st.w _ st.tail h)
    · rcases r with _ | m
      · rw [streamLoopF_some_zero]
        exact h
      · rw [streamLoopF_succ_some]
        dsimp only
        split
        · exact h
        · exact ih _ _ _ _ (seg_inv st.w _ st.tail h)

theorem stream_inv (w : OutWriter) (content : List Nat) (maxBytes : Option Nat)
    (sched : List Nat) (h : w.total = min w.out.length U64_MAX) :
    (write_file_content_streaming w content maxBytes sched).1.total =
      min (write_file_content_streaming w content maxBytes sched).1.out.length U64_MAX := by
  unfold write_file_content_streaming
  have hloop := streamLoopF_inv content.length maxBytes content sched ⟨w, false, [], 0⟩ h
  set st := streamLoopF content.length maxBytes content sched ⟨w, false, [], 0⟩ with hst
  dsimp only
  by_cases hp : st.pending = true
  · rw [if_pos hp]
    dsimp only
    split
    · exact seg_inv st.w [10] st.tail hloop
    · exact raw_inv _ _ (seg_inv st.w [10] st.tail hloop)
  · rw [if_neg hp]
    split
    · exact hloop
    · exact raw_inv _ _ hloop

theorem process_file_inv (B : List Nat → Bool) (S : LargeFileStrategy) (MB : Nat)
    (f : FileIo) (st st' : ExpState) (h : process_file B S MB f st = .ok st')
    (hw : st.w.total = min st.w.out.length U64_MAX) :
    st'.w.total = min st'.w.out.length U64_MAX := by
  unfold process_file at h
  split at h
  · cases h; exact hw
  · split at h
    · cases h
    · split at h
      · cases h; exact hw
      · split at h
        · cases h
        · split at h
          · cases h; exact hw
          · split at h
            · cases h
              exact write_line_inv _ _ (write_line_inv _ _ (write_line_inv _ _
                (write_newline_inv _ (stream_inv _ _ _ _ (write_line_inv _ _ hw)))))
            · cases h
              exact write_line_inv _ _ (write_line_inv _ _ (write_newline_inv _
                (stream_inv _ _ _ _ (write_line_inv _ _ hw))))

theorem run_export_files_inv (B : List Nat → Bool) (S : LargeFileStrategy) (MB : Nat) :
    ∀ (files : List FileIo) (st st' : ExpState),
      run_export_files B S MB files st = .ok st' →
      st.w.total = min st.w.out.length U64_MAX →
      st'.w.total = min st'.w.out.length U64_MAX := by
  intro files
  induction files with
  | nil =>
    intro st st' h hw
    unfold run_export_files at h
    cases h
    exact hw
  | cons f fs ih =>
    intro st st' h hw
    unfold run_export_files at h
    split at h
    · cases h
    · rename_i st'' hok
      exact ih st'' st' h (process_file_inv B S MB f st st'' hok hw)

theorem foldl_write_line_inv (lines : List (List Char)) :
    ∀ (w : OutWriter), w.total = min w.out.length U64_MAX →
      (lines.foldl (fun w line => write_line w (strBytes line)) w).total =
        min (lines.foldl (fun w line => write_line w (strBytes line)) w).out.length U64_MAX := by
  induction lines with
  | nil => intro w h; exact h
  | cons l ls ih =>
    intro w h
    exact ih _ (write_line_inv w (strBytes l) h)

theorem process_file_ok (B : List Nat → Bool) (S : LargeFileStrategy) (MB : Nat)
    (f : FileIo) (st : ExpState)
    (h : f.openFails = true ∨ (f.probeFails = false ∧ f.rewindFails = false)) :
    ∃ st', process_file B S MB f st = .ok st' := by
  unfold process_file
  by_cases ho : f.openFails = true
  · rw [if_pos ho]
    exact ⟨_, rfl⟩
  · rcases h with h | ⟨hp, hr⟩
    · exact absurd h ho
    · rw [if_neg ho, if_neg (by simp [hp])]
      by_cases hbin : B (f.content.take 1024) = true
      · rw [if_pos hbin]
        exact ⟨_, rfl⟩
      · rw [if_neg hbin, if_neg (by simp [hr])]
        by_cases hskip : S = LargeFileStrategy.Skip ∧ f.size > MB
        · rw [if_pos hskip]
          exact ⟨_, rfl⟩
        · rw [if_neg hskip]
          by_cases htr : S = LargeFileStrategy.Truncate ∧ f.size > MB
          · rw [if_pos htr]
            exact ⟨_, rfl⟩
          · rw [if_neg htr]
            exact ⟨_, rfl⟩

theorem run_export_files_ok (B : List Nat → Bool) (S : LargeFileStrategy) (MB : Nat) :
    ∀ (files : List FileIo) (st : ExpState),
      (∀ f ∈ files, f.openFails = true ∨ (f.probeFails = false ∧ f.rewindFails = false)) →
      ∃ st', run_export_files B S MB files st = .ok st' := by
  intro files
  induction files with
  | nil => intro st _; exact ⟨st, rfl⟩
  | cons f fs ih =>
    intro st hall
    obtain ⟨st1, h1⟩ := process_file_ok B S MB f st
      (hall f (List.mem_cons_self f fs))
    obtain ⟨st2, h2⟩ := ih st1 (fun g hg => hall g (List.mem_cons_of_mem f hg))
    refine ⟨st2, ?_⟩
    unfold run_export_files
    rw [h1]
    exact h2

/-- Claim C6 (amended): during the export loop, a failure to open the
selected file, a binary-detection hit, and a large-file skip are each
recovered locally — the loop returns `.ok`, `skippedFiles` is
incremented, a note is appended, and processing continues — but a read
failure while probing the first 1024 bytes (or a rewind failure) aborts
the whole export with an error (see the counterexample), contrary to the
claim that every pre-body per-file failure is recovered. -/
theorem c6_local_recovery (B : List Nat → Bool) (S : LargeFileStrategy) (MB : Nat) :
    (∀ (files : List FileIo) (st : ExpState),
      (∀ f ∈ files, f.openFails = true ∨ (f.probeFails = false ∧ f.rewindFails = false)) →
      ∃ st', run_export_files B S MB files st = .ok st') ∧
    (∀ (f : FileIo) (st : ExpState), f.openFails = true →
      process_file B S MB f st =
        .ok { st with skipped := st.skipped + 1, notes := st.notes ++ [Note.skippedOpen f.rel] }) ∧
    (∀ (f : FileIo) (st : ExpState), f.openFails = false → f.probeFails = false →
      B (f.content.take 1024) = true →
      process_file B S MB f st =
        .ok { st with skipped := st.skipped + 1, notes := st.notes ++ [Note.skippedBinary f.rel] }) ∧
    (∀ (f : FileIo) (st : ExpState), f.openFails = false → f.probeFails = false →
      B (f.content.take 1024) = false → f.rewindFails = false →
      S = LargeFileStrategy.Skip → f.size > MB →
      process_file B S MB f st =
        .ok { st with skipped := st.skipped + 1, notes := st.notes ++ [Note.skippedLarge f.rel] }) := by
  refine ⟨run_export_files_ok B S MB, ?_, ?_, ?_⟩
  · intro f st ho
    unfold process_file
    rw [if_pos ho]
  · intro f st ho hp hbin
    unfold process_file
    rw [if_neg (by simp [ho]), if_neg (by simp [hp]), if_pos hbin]
  · intro f st ho hp hbin hr hs hsz
    unfold process_file
    rw [if_neg (by simp [ho]), if_neg (by simp [hp]), if_neg (by simp [hbin]),
      if_neg (by simp [hr]), if_pos ⟨hs, hsz⟩]

/-- Claim C5: a file whose size equals exactly `maxFileSizeKB × 1024`
is exported in full under both strategies — the two strategies behave
identically at the boundary, the file is counted as exported, not
skipped, and no truncation note is produced — and the streamed body
reads the whole content (cap `none`); under `Truncate` the number of RAW
(pre-normalisation) bytes read from the source is at most the cap. -/
theorem c5_size_at_cap_full_export :
    (∀ (B : List Nat → Bool) (kb : Nat) (f : FileIo) (st : ExpState),
      f.size = kb * 1024 → kb * 1024 ≤ U64_MAX →
      f.openFails = false → f.probeFails = false → f.rewindFails = false →
      B (f.content.take 1024) = false →
      process_file B LargeFileStrategy.Truncate (satMul kb 1024) f st =
        process_file B LargeFileStrategy.Skip (satMul kb 1024) f st ∧
      ∃ st', process_file B LargeFileStrategy.Truncate (satMul kb 1024) f st = .ok st' ∧
        st'.exported = st.exported + 1 ∧ st'.skipped = st.skipped ∧ st'.notes = st.notes) ∧
    (∀ (w : OutWriter) (content : List Nat),
      (write_file_content_streaming w content none []).2 = content.length) ∧
    (∀ (w : OutWriter) (content : List Nat) (m : Nat) (sched : List Nat),
      (write_file_content_streaming w content (some m) sched).2 ≤ m) := by
  refine ⟨?_, stream_consumed_all, stream_consumed_le⟩
  intro B kb f st hsize hle ho hp hr hb
  have hMB : satMul kb 1024 = kb * 1024 := by
    unfold satMul
    omega
  have hnot : ¬ f.size > satMul kb 1024 := by
    rw [hMB, hsize]
    omega
  constructor
  · unfold process_file
    simp [ho, hp, hb, hr, hnot]
  · unfold process_file
    simp only [ho, hp, hb, hr, hnot, and_false, if_false, Bool.false_eq_true]
    exact ⟨_, rfl, rfl, rfl, rfl⟩

/-- Counterexample to C6 as stated: a probe read failure is NOT
recovered locally — `run_export` propagates it with `?` and the whole
operation returns an error instead of skipping the file. -/
theorem c6_probe_failure_aborts :
    run_export_model (fun _ => false) LargeFileStrategy.Truncate 1
      [⟨"f.txt".toList, 2, false, true, false, [104, 105]⟩] [] =
      Except.error (ExpErr.probeFailed "f.txt".toList) := rfl

/-- Witness for C6 (amended): an open failure is recovered — the loop
returns `.ok`, the file is counted as skipped and a note is appended. -/
theorem c6_local_recovery_witness :
    ((∀ f ∈ [(⟨"x.txt".toList, 1, true, false, false, [104]⟩ : FileIo)],
        f.openFails = true ∨ (f.probeFails = false ∧ f.rewindFails = false)) ∧
      ∃ st', run_export_files (fun _ => false) LargeFileStrategy.Truncate 1024
        [⟨"x.txt".toList, 1, true, false, false, [104]⟩] ⟨⟨[], 0⟩, 0, 0, []⟩ = .ok st') ∧
    process_file (fun _ => false) LargeFileStrategy.Truncate 1024
        ⟨"x.txt".toList, 1, true, false, false, [104]⟩ ⟨⟨[], 0⟩, 0, 0, []⟩ =
      .ok ⟨⟨[], 0⟩, 0, 1, [Note.skippedOpen "x.txt".toList]⟩ :=
  ⟨⟨by decide,
      (c6_local_recovery (fun _ => false) LargeFileStrategy.Truncate 1024).1
        [⟨"x.txt".toList, 1, true, false, false, [104]⟩] ⟨⟨[], 0⟩, 0, 0, []⟩ (by decide)⟩,
    (c6_local_recovery (fun _ => false) LargeFileStrategy.Truncate 1024).2.1
      ⟨"x.txt".toList, 1, true, false, false, [104]⟩ ⟨⟨[], 0⟩, 0, 0, []⟩ rfl⟩

/-- Witness for C5: `maxFileSizeKB = 1`, a 1024-byte file. -/
theorem c5_size_at_cap_full_export_witness :
    ((1024 : Nat) = 1 * 1024 ∧ (1 : Nat) * 1024 ≤ U64_MAX) ∧
    (process_file (fun _ => false) LargeFileStrategy.Truncate (satMul 1 1024)
        ⟨"a.txt".toList, 1024, false, false, false, [97]⟩ ⟨⟨[], 0⟩, 0, 0, []⟩ =
      process_file (fun _ => false) LargeFileStrategy.Skip (satMul 1 1024)
        ⟨"a.txt".toList, 1024, false, false, false, [97]⟩ ⟨⟨[], 0⟩, 0, 0, []⟩ ∧
      ∃ st', process_file (fun _ => false) LargeFileStrategy.Truncate (satMul 1 1024)
          ⟨"a.txt".toList, 1024, false, false, false, [97]⟩ ⟨⟨[], 0⟩, 0, 0, []⟩ = .ok st' ∧
        st'.exported = 0 + 1 ∧ st'.skipped = 0 ∧ st'.notes = []) :=
  ⟨⟨by decide, by decide⟩,
    c5_size_at_cap_full_export.1 (fun _ => false) 1
      ⟨"a.txt".toList, 1024, false, false, false, [97]⟩ ⟨⟨[], 0⟩, 0, 0, []⟩
      (by decide) (by decide) rfl rfl rfl rfl⟩

/-- Claim C4: for every input file and every chunking of its bytes (any
byte budget, any schedule of read sizes), the body written by the
streaming exporter contains no `\r` (0x0D) byte; and the per-chunk
normalisation stream — including a `\r\n` pair split across a chunk
boundary and a `\r` pending at end of input, flushed as `\n` — equals
the spec's whole-input CRLF normalisation of the concatenated chunks. -/
theorem c4_stream_body_no_cr :
    (∀ (content : List Nat) (maxBytes : Option Nat) (sched : List Nat),
      ∀ x ∈ (write_file_content_streaming ⟨[], 0⟩ content maxBytes sched).1.out, x ≠ 13) ∧
    (∀ chunks : List (List Nat), (∀ c ∈ chunks, c ≠ []) →
      normStreamAll chunks = specNormalizeCrlf chunks.flatten) :=
  ⟨stream_no_cr, normStreamAll_spec⟩

/-- Witness for C4: a CR-LF pair split across two chunks. -/
theorem c4_stream_body_no_cr_witness :
    (97 ∈ (write_file_content_streaming ⟨[], 0⟩ [97, 13] none [1]).1.out ∧ (97 : Nat) ≠ 13) ∧
    ((∀ c ∈ [[97, 13], [10]], c ≠ ([] : List Nat)) ∧
      normStreamAll [[97, 13], [10]] =
        specNormalizeCrlf ([[97, 13], [10]] : List (List Nat)).flatten) :=
  ⟨⟨by decide, c4_stream_body_no_cr.1 [97, 13] none [1] 97 (by decide)⟩,
    ⟨by decide, c4_stream_body_no_cr.2 [[97, 13], [10]] (by decide)⟩⟩

/-- Claim C9: the carried UTF-8 tail is always strictly an incomplete
sequence of length at most 3 (`|tail| < 4`): every
`write_utf8_lossy_segment` call preserves this invariant (the written
prefix is the largest valid-or-conclusively-invalid one), and at end of
file a non-empty (incomplete) tail is written with its bytes replaced by
U+FFFD during emission. -/
theorem c9_tail_always_incomplete :
    (∀ (w : OutWriter) (segment tail : List Nat), tailInv tail = true →
      tailInv (write_utf8_lossy_segment w segment tail).2 = true) ∧
    (∀ (w : OutWriter) (tail : List Nat), utf8Err tail = some (0, none) →
      (write_utf8_lossy_raw w tail).out = w.out ++ replacementBytes) :=
  ⟨seg_tailInv, raw_incomplete⟩

/-- Witness for C9: a chunk ending in the first byte of a three-byte
sequence, and the end-of-file flush of an incomplete two-byte tail. -/
theorem c9_tail_always_incomplete_witness :
    (tailInv [0xE4] = true ∧
      tailInv (write_utf8_lossy_segment ⟨[], 0⟩ [0x61, 0xE4] [0xE4]).2 = true) ∧
    (utf8Err [0xE4, 0xB8] = some (0, none) ∧
      (write_utf8_lossy_raw ⟨[97], 1⟩ [0xE4, 0xB8]).out = [97] ++ replacementBytes) :=
  ⟨⟨by decide, c9_tail_always_incomplete.1 ⟨[], 0⟩ [0x61, 0xE4] [0xE4] (by decide)⟩,
    ⟨by decide, c9_tail_always_incomplete.2 ⟨[97], 1⟩ [0xE4, 0xB8] (by decide)⟩⟩

/-- Claim C10: on every successful return of the export loop,
`totalBytesWritten` equals the exact byte length of the produced output
(every write path increments the counter by precisely the bytes handed
to the writer; the `u64` counter saturates, so exactness holds whenever
the length fits in `u64`, which the byte length of a real file does). -/
theorem c10_total_bytes_exact (B : List Nat → Bool) (S : LargeFileStrategy)
    (kb : Nat) (files : List FileIo) (notes0 : List Note) (st : ExpState)
    (h : run_export_model B S kb files notes0 = .ok st)
    (hlen : st.w.out.length ≤ U64_MAX) :
    st.w.total = st.w.out.length := by
  have base : (⟨[], 0⟩ : OutWriter).total = min (⟨[], 0⟩ : OutWriter).out.length U64_MAX := by
    simp
  unfold run_export_model at h
  have h0 := write_line_inv ⟨[], 0⟩ structureMarker base
  have h1 := foldl_write_line_inv (build_structure_lines (files.map (fun f => f.rel))) _ h0
  have h2 := write_line_inv _ ([] : List Nat) h1
  have h3 := run_export_files_inv B S (satMul kb 1024) files _ st h h2
  omega

/-- Witness for C10: an export of an empty selection. -/
theorem c10_total_bytes_exact_witness :
    (run_export_model (fun _ => false) LargeFileStrategy.Truncate 1 [] [] =
      Except.ok ⟨⟨[61, 61, 61, 32, 83, 84, 82, 85, 67, 84, 85, 82, 69, 32, 61, 61,
        61, 10, 46, 10, 10], 21⟩, 0, 0, []⟩ ∧ (21 : Nat) ≤ U64_MAX) ∧
    (⟨⟨[61, 61, 61, 32, 83, 84, 82, 85, 67, 84, 85, 82, 69, 32, 61, 61,
        61, 10, 46, 10, 10], 21⟩, 0, 0, []⟩ : ExpState).w.total =
      (⟨⟨[61, 61, 61, 32, 83, 84, 82, 85, 67, 84, 85, 82, 69, 32, 61, 61,
        61, 10, 46, 10, 10], 21⟩, 0, 0, []⟩ : ExpState).w.out.length :=
  ⟨⟨rfl, by decide⟩,
    c10_total_bytes_exact (fun _ => false) LargeFileStrategy.Truncate 1 [] []
      ⟨⟨[61, 61, 61, 32, 83, 84, 82, 85, 67, 84, 85, 82, 69, 32, 61, 61,
        61, 10, 46, 10, 10], 21⟩, 0, 0, []⟩ rfl (by decide)⟩

theorem charCmp_eq_iff (a b : Char) : charCmp a b = Ordering.eq ↔ a = b := by
  unfold charCmp
  constructor
  · intro h
    split at h
    · exact absurd h (by simp)
    · split at h
      · exact absurd h (by simp)
      · rename_i h1 h2
        have hn : a.toNat = b.toNat := by omega
        exact Char.eq_of_val_eq (UInt32.ext hn)
  · intro h
    subst h
    simp

theorem charCmp_swap (a b : Char) : charCmp b a = (charCmp a b).swap := by
  unfold charCmp
  rcases Nat.lt_trichotomy a.toNat b.toNat with h | h | h <;>
    simp [h, Nat.lt_asymm, Ordering.swap]

theorem cmpChars_eq_iff (a b : List Char) : cmpChars a b = Ordering.eq ↔ a = b := by
  induction a generalizing b with
  | nil =>
    cases b <;> simp [cmpChars]
  | cons x xs ih =>
    cases b with
    | nil => simp [cmpChars]
    | cons y ys =>
      unfold cmpChars
      cases hc : charCmp x y with
      | eq =>
        have hxy : x = y := (charCmp_eq_iff x y).mp hc
        subst hxy
        simp [ih]
      | lt =>
        have : ¬ x = y := fun h => by
          subst h
          rw [(charCmp_eq_iff x x).mpr rfl] at hc
          cases hc
        simp [this]
      | gt =>
        have : ¬ x = y := fun h => by
          subst h
          rw [(charCmp_eq_iff x x).mpr rfl] at hc
          cases hc
        simp [this]

theorem charCmp_le_trans (a b c : Char) (h1 : charCmp a b ≠ Ordering.gt)
    (h2 : charCmp b c ≠ Ordering.gt) : charCmp a c ≠ Ordering.gt := by
  unfold charCmp at *
  split at h1
  · split at h2 <;> split <;> simp_all <;> omega
  · split at h1
    · simp_all
    · split at h2 <;> split <;> simp_all <;> omega

theorem cmpChars_swap (a : List Char) : ∀ b, cmpChars b a = (cmpChars a b).swap := by
  induction a with
  | nil => intro b; cases b <;> simp [cmpChars, Ordering.swap]
  | cons x xs ih =>
    intro b
    cases b with
    | nil => simp [cmpChars, Ordering.swap]
    | cons y ys =>
      unfold cmpChars
      rw [charCmp_swap x y]
      cases hc : charCmp x y <;> simp [Ordering.swap, ih ys]

theorem charCmp_lt_toNat (a b : Char) (h : charCmp a b = Ordering.lt) :
    a.toNat < b.toNat := by
  by_contra hcon
  unfold charCmp at h
  rw [if_neg hcon] at h
  split at h <;> simp_all

theorem charCmp_of_toNat_lt (a b : Char) (h : a.toNat < b.toNat) :
    charCmp a b = Ordering.lt := by
  unfold charCmp
  rw [if_pos h]

theorem cmpChars_le_trans (a : List Char) :
    ∀ b c, cmpChars a b ≠ Ordering.gt → cmpChars b c ≠ Ordering.gt →
      cmpChars a c ≠ Ordering.gt := by
  induction a with
  | nil =>
    intro b c h1 h2
    cases c <;> simp [cmpChars]
  | cons x xs ih =>
    intro b c h1 h2
    cases b with
    | nil => exact ((by simp [cmpChars] at h1 : False)).elim
    | cons y ys =>
      cases c with
      | nil => exact ((by simp [cmpChars] at h2 : False)).elim
      | cons z zs =>
        unfold cmpChars at h1 h2 ⊢
        cases hxy : charCmp x y with
        | gt => simp [hxy] at h1
        | eq =>
          obtain rfl : x = y := (charCmp_eq_iff x y).mp hxy
          simp only [hxy] at h1
          cases hyz : charCmp x z with
          | gt => simp [hyz] at h2
          | eq =>
            simp only [hyz] at h2 ⊢
            exact ih ys zs h1 h2
          | lt => simp [hyz]
        | lt =>
          cases hyz : charCmp y z with
          | gt => simp [hyz] at h2
          | eq =>
            obtain rfl : y = z := (charCmp_eq_iff y z).mp hyz
            simp [hxy]
          | lt =>
            have hxz : charCmp x z = Ordering.lt :=
              charCmp_of_toNat_lt x z
                (lt_trans (charCmp_lt_toNat x y hxy) (charCmp_lt_toNat y z hyz))
            simp [hxz]

theorem cmpChars_lt_trans (a b c : List Char) (h1 : cmpChars a b = Ordering.lt)
    (h2 : cmpChars b c = Ordering.lt) : cmpChars a c = Ordering.lt := by
  have hle : cmpChars a c ≠ Ordering.gt :=
    cmpChars_le_trans a b c (by simp [h1]) (by simp [h2])
  cases hac : cmpChars a c with
  | lt => rfl
  | gt => exact absurd hac hle
  | eq =>
    obtain rfl : a = c := (cmpChars_eq_iff a c).mp hac
    rw [cmpChars_swap a b, h1] at h2
    simp [Ordering.swap] at h2

theorem ci_cmp_eq_of (a b : List Char) (h : ci_cmp a b = Ordering.eq) : a = b := by
  unfold ci_cmp at h
  dsimp only at h
  split at h
  · exact (cmpChars_eq_iff a b).mp h
  · rename_i hne
    exact absurd h hne

theorem ci_cmp_swap (a b : List Char) : ci_cmp b a = (ci_cmp a b).swap := by
  unfold ci_cmp
  dsimp only
  rw [cmpChars_swap (lowerChars a) (lowerChars b), cmpChars_swap a b]
  cases h : cmpChars (lowerChars a) (lowerChars b) <;> simp [Ordering.swap]

theorem ci_cmp_le_trans (a b c : List Char) (h1 : ci_cmp a b ≠ Ordering.gt)
    (h2 : ci_cmp b c ≠ Ordering.gt) : ci_cmp a c ≠ Ordering.gt := by
  unfold ci_cmp at *
  dsimp only at h1 h2 ⊢
  by_cases q1 : cmpChars (lowerChars a) (lowerChars b) = Ordering.eq
  · have hlab : lowerChars a = lowerChars b := (cmpChars_eq_iff _ _).mp q1
    rw [if_pos q1] at h1
    by_cases q2 : cmpChars (lowerChars b) (lowerChars c) = Ordering.eq
    · have hlbc : lowerChars b = lowerChars c := (cmpChars_eq_iff _ _).mp q2
      have q3 : cmpChars (lowerChars a) (lowerChars c) = Ordering.eq := by
        rw [hlab, hlbc]
        exact (cmpChars_eq_iff _ _).mpr rfl
      rw [if_pos q3]
      rw [if_pos q2] at h2
      exact cmpChars_le_trans a b c h1 h2
    · rw [if_neg q2] at h2
      have q2lt : cmpChars (lowerChars b) (lowerChars c) = Ordering.lt := by
        cases hx : cmpChars (lowerChars b) (lowerChars c) <;> simp_all
      have q3 : cmpChars (lowerChars a) (lowerChars c) = Ordering.lt := by
        rw [hlab]
        exact q2lt
      rw [if_neg (by simp [q3]), q3]
      simp
  · rw [if_neg q1] at h1
    have q1lt : cmpChars (lowerChars a) (lowerChars b) = Ordering.lt := by
      cases hx : cmpChars (lowerChars a) (lowerChars b) <;> simp_all
    by_cases q2 : cmpChars (lowerChars b) (lowerChars c) = Ordering.eq
    · have hlbc := (cmpChars_eq_iff _ _).mp q2
      have q3 : cmpChars (lowerChars a) (lowerChars c) = Ordering.lt := by
        rw [← hlbc]
        exact q1lt
      rw [if_neg (by simp [q3]), q3]
      simp
    · rw [if_neg q2] at h2
      have q2lt : cmpChars (lowerChars b) (lowerChars c) = Ordering.lt := by
        cases hx : cmpChars (lowerChars b) (lowerChars c) <;> simp_all
      have q3 := cmpChars_lt_trans _ _ _ q1lt q2lt
      rw [if_neg (by simp [q3]), q3]
      simp

theorem compare_entries_swap (pa : List Char) (da : Bool) (pb : List Char) (db : Bool) :
    compare_entries pb db pa da = (compare_entries pa da pb db).swap := by
  unfold compare_entries
  cases da <;> cases db <;> simp [Ordering.swap, ci_cmp_swap pa pb]

theorem compare_entries_le_trans (pa : List Char) (da : Bool) (pb : List Char) (db : Bool)
    (pc : List Char) (dc : Bool)
    (h1 : compare_entries pa da pb db ≠ Ordering.gt)
    (h2 : compare_entries pb db pc dc ≠ Ordering.gt) :
    compare_entries pa da pc dc ≠ Ordering.gt := by
  unfold compare_entries at *
  cases da <;> cases db <;> cases dc <;> simp_all <;>
    exact ci_cmp_le_trans _ _ _ h1 h2

theorem compare_entries_eq_of (pa : List Char) (da : Bool) (pb : List Char) (db : Bool)
    (h : compare_entries pa da pb db = Ordering.eq) : pa = pb ∧ da = db := by
  unfold compare_entries at h
  cases da <;> cases db <;> simp_all
  · exact ci_cmp_eq_of _ _ h
  · exact ci_cmp_eq_of _ _ h

theorem insertCmp_perm {α : Type} (le : α → α → Bool) (a : α) :
    ∀ l : List α, (insertCmp le a l).Perm (a :: l) := by
  intro l
  induction l with
  | nil => simp [insertCmp]
  | cons b l ih =>
    unfold insertCmp
    split
    · exact List.Perm.refl _
    · exact (List.Perm.cons b ih).trans (List.Perm.swap a b l)

theorem sortCmp_perm {α : Type} (le : α → α → Bool) :
    ∀ l : List α, (sortCmp le l).Perm l := by
  intro l
  induction l with
  | nil => simp [sortCmp]
  | cons a l ih =>
    unfold sortCmp
    exact (insertCmp_perm le a (sortCmp le l)).trans (ih.cons a)

theorem mem_insertCmp {α : Type} (le : α → α → Bool) (a x : α) (l : List α) :
    x ∈ insertCmp le a l ↔ x = a ∨ x ∈ l := by
  rw [(insertCmp_perm le a l).mem_iff]
  simp

theorem pairwise_insertCmp {α : Type} (le : α → α → Bool)
    (htrans : ∀ a b c, le a b = true → le b c = true → le a c = true)
    (htotal : ∀ a b, le a b = true ∨ le b a = true) (a : α) :
    ∀ l : List α, l.Pairwise (le · · = true) →
      (insertCmp le a l).Pairwise (le · · = true) := by
  intro l
  induction l with
  | nil => intro _; simp [insertCmp]
  | cons b l ih =>
    intro hl
    rw [List.pairwise_cons] at hl
    unfold insertCmp
    split
    · rename_i hab
      rw [List.pairwise_cons]
      refine ⟨?_, List.pairwise_cons.mpr hl⟩
      intro x hx
      rcases List.mem_cons.mp hx with rfl | hx
      · exact hab
      · exact htrans a b x hab (hl.1 x hx)
    · rename_i hab
      have hba : le b a = true := by
        rcases htotal a b with h | h
        · exact absurd h hab
        · exact h
      rw [List.pairwise_cons]
      refine ⟨?_, ih hl.2⟩
      intro x hx
      rcases (mem_insertCmp le a x l).mp hx with rfl | hx
      · exact hba
      · exact hl.1 x hx

theorem pairwise_sortCmp {α : Type} (le : α → α → Bool)
    (htrans : ∀ a b c, le a b = true → le b c = true → le a c = true)
    (htotal : ∀ a b, le a b = true ∨ le b a = true) :
    ∀ l : List α, (sortCmp le l).Pairwise (le · · = true) := by
  intro l
  induction l with
  | nil => simp [sortCmp]
  | cons a l ih =>
    unfold sortCmp
    exact pairwise_insertCmp le htrans htotal a (sortCmp le l) ih

theorem perm_pairwise_eq {α : Type} (le : α → α → Bool) :
    ∀ (l₁ l₂ : List α), l₁.Perm l₂ →
      l₁.Pairwise (le · · = true) → l₂.Pairwise (le · · = true) →
      (∀ a ∈ l₁, ∀ b ∈ l₁, le a b = true → le b a = true → a = b) →
      l₁ = l₂ := by
  intro l₁
  induction l₁ with
  | nil =>
    intro l₂ hp _ _ _
    exact List.Perm.nil_eq hp
  | cons a t₁ ih =>
    intro l₂ hp hs₁ hs₂ hanti
    cases l₂ with
    | nil => exact absurd hp (by simp)
    | cons b t₂ =>
      have hab : a = b := by
        by_contra hne
        have hbmem : b ∈ a :: t₁ := hp.symm.subset (List.mem_cons_self b t₂)
        have hamem : a ∈ b :: t₂ := hp.subset (List.mem_cons_self a t₁)
        have hbt₁ : b ∈ t₁ := by
          rcases List.mem_cons.mp hbmem with h | h
          · exact absurd h.symm hne
          · exact h
        have hat₂ : a ∈ t₂ := by
          rcases List.mem_cons.mp hamem with h | h
          · exact absurd h hne
          · exact h
        have h1 : le a b = true := (List.pairwise_cons.mp hs₁).1 b hbt₁
        have h2 : le b a = true := (List.pairwise_cons.mp hs₂).1 a hat₂
        exact hne (hanti a (List.mem_cons_self a t₁) b hbmem h1 h2)
      subst hab
      have hp' : t₁.Perm t₂ := (List.perm_cons a).mp hp
      have := ih t₂ hp' (List.pairwise_cons.mp hs₁).2 (List.pairwise_cons.mp hs₂).2
        (fun x hx y hy hxy hyx =>
          hanti x (List.mem_cons_of_mem a hx) y (List.mem_cons_of_mem a hy) hxy hyx)
      rw [this]

theorem sortCmp_eq_of_perm {α : Type} (le : α → α → Bool)
    (htrans : ∀ a b c, le a b = true → le b c = true → le a c = true)
    (htotal : ∀ a b, le a b = true ∨ le b a = true)
    (l₁ l₂ : List α) (hp : l₁.Perm l₂)
    (hanti : ∀ a ∈ l₁, ∀ b ∈ l₁, le a b = true → le b a = true → a = b) :
    sortCmp le l₁ = sortCmp le l₂ := by
  refine perm_pairwise_eq le _ _ ?_ ?_ ?_ ?_
  · exact (sortCmp_perm le l₁).trans (hp.trans (sortCmp_perm le l₂).symm)
  · exact pairwise_sortCmp le htrans htotal l₁
  · exact pairwise_sortCmp le htrans htotal l₂
  · intro a ha b hb hab hba
    exact hanti a ((sortCmp_perm le l₁).subset ha) b ((sortCmp_perm le l₁).subset hb) hab hba

theorem insertCmp_map {α β : Type} (le : α → α → Bool) (le' : β → β → Bool)
    (f : α → β) (hf : ∀ a b, le' (f a) (f b) = le a b) (a : α) :
    ∀ l : List α, insertCmp le' (f a) (l.map f) = (insertCmp le a l).map f := by
  intro l
  induction l with
  | nil => simp [insertCmp]
  | cons b l ih =>
    simp only [List.map_cons]
    unfold insertCmp
    rw [hf a b]
    split
    · simp
    · simp [ih]

theorem sortCmp_map {α β : Type} (le : α → α → Bool) (le' : β → β → Bool)
    (f : α → β) (hf : ∀ a b, le' (f a) (f b) = le a b) :
    ∀ l : List α, sortCmp le' (l.map f) = (sortCmp le l).map f := by
  intro l
  induction l with
  | nil => simp [sortCmp]
  | cons a l ih =>
    simp only [List.map_cons]
    unfold sortCmp
    rw [ih]
    exact insertCmp_map le le' f hf a (sortCmp le l)

theorem canonList_eq_map : ∀ cs : List FsEntry, canonList cs = cs.map canonEntry := by
  intro cs
  induction cs with
  | nil => simp [canonList]
  | cons c cs ih => simp [canonList, ih]

theorem entryName_canon (c : FsEntry) : entryName (canonEntry c) = entryName c := by
  cases c <;> simp [canonEntry, entryName]

theorem entryIsDir_canon (c : FsEntry) : entryIsDir (canonEntry c) = entryIsDir c := by
  cases c <;> simp [canonEntry, entryIsDir]

theorem entryContent_canon (c : FsEntry) : entryContent (canonEntry c) = entryContent c := by
  cases c <;> simp [canonEntry, entryContent]

theorem isEmpty_eq_of_length {α β : Type} (l1 : List α) (l2 : List β)
    (h : l1.length = l2.length) : l1.isEmpty = l2.isEmpty := by
  cases l1 <;> cases l2 <;> simp_all

theorem entryKids_isEmpty_canon (c : FsEntry) :
    (entryKids (canonEntry c)).isEmpty = (entryKids c).isEmpty := by
  cases c with
  | file n k => simp [canonEntry, entryKids]
  | dir n cs =>
    simp only [canonEntry, entryKids]
    have hlen : (sortCmp nameLe (canonList cs)).length = cs.length := by
      rw [(sortCmp_perm nameLe (canonList cs)).length_eq, canonList_eq_map,
        List.length_map]
    exact isEmpty_eq_of_length _ _ hlen

theorem walkLe_canon (rootAbs parentRel : List Char) (a b : FsEntry) :
    walkLe rootAbs parentRel (canonEntry a) (canonEntry b) = walkLe rootAbs parentRel a b := by
  unfold walkLe
  rw [entryName_canon, entryName_canon, entryIsDir_canon, entryIsDir_canon]

theorem nodupKeys_inj {α : Type} (f : α → List Char) :
    ∀ (l : List α), nodupKeys (l.map f) = true →
      ∀ a ∈ l, ∀ b ∈ l, f a = f b → a = b := by
  intro l
  induction l with
  | nil => intro _ a ha; simp at ha
  | cons c l ih =>
    intro hnd a ha b hb hf
    simp only [List.map_cons] at hnd
    unfold nodupKeys at hnd
    rw [Bool.and_eq_true] at hnd
    have hncon : (l.map f).contains (f c) = false := by
      rcases h : (l.map f).contains (f c) with _ | _
      · rfl
      · rw [h] at hnd
        simp at hnd
    have hnc : f c ∉ l.map f := by
      intro hmem
      have hct : (l.map f).contains (f c) = true := List.elem_iff.mpr hmem
      rw [hct] at hncon
      cases hncon
    rcases List.mem_cons.mp ha with hac | ha <;> rcases List.mem_cons.mp hb with hbc | hb
    · rw [hac, hbc]
    · exact absurd (by rw [← hac, hf]; exact List.mem_map_of_mem f hb) hnc
    · exact absurd (by rw [← hbc, ← hf]; exact List.mem_map_of_mem f ha) hnc
    · exact ih hnd.2 a ha b hb hf

theorem absOf_inj (rootAbs x y : List Char) (h : absOf rootAbs x = absOf rootAbs y) : x = y := by
  unfold absOf at h
  exact (List.cons_eq_cons.mp (List.append_cancel_left h)).2

theorem childRel_inj (parentRel nx ny : List Char)
    (h : childRel parentRel nx = childRel parentRel ny) : nx = ny := by
  unfold childRel at h
  split at h
  · exact h
  · exact (List.cons_eq_cons.mp (List.append_cancel_left h)).2

theorem bne_gt_iff (o : Ordering) : (o != Ordering.gt) = true ↔ o ≠ Ordering.gt := by
  cases o <;> decide

theorem ord_total (o : Ordering) : o ≠ Ordering.gt ∨ o.swap ≠ Ordering.gt := by
  cases o <;> simp [Ordering.swap]

theorem ord_antisymm (o : Ordering) (h1 : o ≠ Ordering.gt) (h2 : o.swap ≠ Ordering.gt) :
    o = Ordering.eq := by
  cases o <;> simp_all [Ordering.swap]

theorem walkLe_trans (rootAbs parentRel : List Char) (a b c : FsEntry)
    (h1 : walkLe rootAbs parentRel a b = true) (h2 : walkLe rootAbs parentRel b c = true) :
    walkLe rootAbs parentRel a c = true := by
  unfold walkLe at h1 h2 ⊢
  rw [bne_gt_iff] at h1 h2 ⊢
  exact compare_entries_le_trans _ _ _ _ _ _ h1 h2

theorem walkLe_total (rootAbs parentRel : List Char) (a b : FsEntry) :
    walkLe rootAbs parentRel a b = true ∨ walkLe rootAbs parentRel b a = true := by
  unfold walkLe
  rw [bne_gt_iff, bne_gt_iff, compare_entries_swap]
  exact (ord_total _).symm

theorem walkLe_antisymm (rootAbs parentRel : List Char) (cs : List FsEntry)
    (hnd : nodupKeys (cs.map entryName) = true)
    (a : FsEntry) (ha : a ∈ cs) (b : FsEntry) (hb : b ∈ cs)
    (h1 : walkLe rootAbs parentRel a b = true) (h2 : walkLe rootAbs parentRel b a = true) :
    a = b := by
  unfold walkLe at h1 h2
  rw [bne_gt_iff] at h1 h2
  rw [compare_entries_swap] at h2
  have heq := ord_antisymm _ h1 h2
  have hpq := compare_entries_eq_of _ _ _ _ heq
  have hname : entryName a = entryName b :=
    childRel_inj parentRel _ _ (absOf_inj rootAbs _ _ hpq.1)
  exact nodupKeys_inj entryName cs hnd a ha b hb hname

theorem wfAll_mem : ∀ cs : List FsEntry, wfAll cs = true → ∀ c ∈ cs, wfEntry c = true := by
  intro cs
  induction cs with
  | nil => intro _ c hc; simp at hc
  | cons d cs ih =>
    intro h c hc
    unfold wfAll at h
    rw [Bool.and_eq_true] at h
    rcases List.mem_cons.mp hc with rfl | hc
    · exact h.1
    · exact ih h.2 c hc

theorem map_name_canon (cs : List FsEntry) :
    (cs.map canonEntry).map entryName = cs.map entryName := by
  simp only [List.map_map]
  exact List.map_congr_left (fun c _ => entryName_canon c)

theorem sortChildren_canon (rootAbs parentRel : List Char) (cs : List FsEntry)
    (hnd : nodupKeys (cs.map entryName) = true) :
    sortChildren rootAbs parentRel (canonForest cs)
      = (sortChildren rootAbs parentRel cs).map canonEntry := by
  unfold sortChildren canonForest
  rw [canonList_eq_map]
  have hperm : (sortCmp nameLe (cs.map canonEntry)).Perm (cs.map canonEntry) :=
    sortCmp_perm nameLe _
  have hstep1 : sortCmp (walkLe rootAbs parentRel) (sortCmp nameLe (cs.map canonEntry))
      = sortCmp (walkLe rootAbs parentRel) (cs.map canonEntry) := by
    refine sortCmp_eq_of_perm _ (walkLe_trans rootAbs parentRel)
      (walkLe_total rootAbs parentRel) _ _ hperm ?_
    intro a ha b hb hab hba
    have hnd2 : nodupKeys ((cs.map canonEntry).map entryName) = true := by
      rw [map_name_canon]; exact hnd
    exact walkLe_antisymm rootAbs parentRel (cs.map canonEntry) hnd2
      a (hperm.subset ha) b (hperm.subset hb) hab hba
  rw [hstep1]
  exact sortCmp_map (walkLe rootAbs parentRel) (walkLe rootAbs parentRel) canonEntry
    (walkLe_canon rootAbs parentRel) cs

theorem walkAt_succ (rootAbs : List Char) (fuel : Nat) (parentRel : List Char) (depth : Nat)
    (cs : List FsEntry) :
    walkAt rootAbs (fuel + 1) parentRel depth cs
      = ((sortChildren rootAbs parentRel cs).map (fun c =>
          (⟨childRel parentRel (entryName c), depth, entryIsDir c, !(entryKids c).isEmpty,
            entryContent c⟩ : WEntry) ::
            (if entryIsDir c then
              walkAt rootAbs fuel (childRel parentRel (entryName c)) (depth + 1) (entryKids c)
            else []))).flatten := rfl

theorem walkAt_canon (rootAbs : List Char) :
    ∀ (fuel : Nat) (parentRel : List Char) (depth : Nat) (cs : List FsEntry),
      nodupKeys (cs.map entryName) = true → wfAll cs = true →
      walkAt rootAbs fuel parentRel depth (canonForest cs)
        = walkAt rootAbs fuel parentRel depth cs := by
  intro fuel
  induction fuel with
  | zero => intro _ _ _ _ _; rfl
  | succ fuel ih =>
    intro parentRel depth cs hnd hwf
    rw [walkAt_succ, walkAt_succ, sortChildren_canon rootAbs parentRel cs hnd, List.map_map]
    congr 1
    apply List.map_congr_left
    intro c hc
    have hcmem : c ∈ cs := (sortCmp_perm (walkLe rootAbs parentRel) cs).subset hc
    have hwfc : wfEntry c = true := wfAll_mem cs hwf c hcmem
    cases c with
    | file n k => rfl
    | dir n kids =>
      have hwfk := hwfc
      unfold wfEntry at hwfk
      rw [Bool.and_eq_true] at hwfk
      have hkids := ih (childRel parentRel n) (depth + 1) kids hwfk.1 hwfk.2
      have hemp : (sortCmp nameLe (canonList kids)).isEmpty = kids.isEmpty := by
        apply isEmpty_eq_of_length
        rw [(sortCmp_perm nameLe (canonList kids)).length_eq, canonList_eq_map,
          List.length_map]
      unfold canonForest at hkids
      simp only [Function.comp_apply, canonEntry, entryName, entryIsDir, entryKids,
        entryContent, if_true, hemp, hkids]

theorem walk_entries_canon (rootAbs : List Char) (maxDepth : Nat) (cs : List FsEntry)
    (h : wfForest cs = true) :
    walk_entries rootAbs maxDepth (canonForest cs) = walk_entries rootAbs maxDepth cs := by
  unfold wfForest at h
  rw [Bool.and_eq_true] at h
  exact walkAt_canon rootAbs maxDepth [] 1 cs h.1 h.2

/-- **C7.** The export pipeline is a deterministic function of the
filesystem snapshot, configuration and limits: since the embedding is a
pure function, determinism across two runs reduces to independence from
the only run-varying input, the order in which the OS lists directory
children. For any two well-formed snapshots with the same canonical form
(same files, names and contents, children in any order), `export_run`
produces byte-for-byte identical output. -/
theorem c7_export_deterministic (isBinary : List Nat → Bool) (cfg : Config)
    (limits : ScanLimits) (t1 t2 : List FsEntry)
    (h1 : wfForest t1 = true) (h2 : wfForest t2 = true)
    (hc : canonForest t1 = canonForest t2) :
    export_run isBinary cfg limits t1 = export_run isBinary cfg limits t2 := by
  have e1 := walk_entries_canon cfg.rootAbs limits.maxDepth t1 h1
  have e2 := walk_entries_canon cfg.rootAbs limits.maxDepth t2 h2
  have hwalk : walk_entries cfg.rootAbs limits.maxDepth t1
      = walk_entries cfg.rootAbs limits.maxDepth t2 := by
    rw [← e1, ← e2, hc]
  unfold export_run collect_selected_files
  rw [hwalk]

theorem c7_export_deterministic_witness :
    (wfForest c7Tree1 = true ∧ wfForest c7Tree2 = true ∧
      canonForest c7Tree1 = canonForest c7Tree2) ∧
    export_run (fun _ => false) c7Cfg ⟨100000, 64⟩ c7Tree1
      = export_run (fun _ => false) c7Cfg ⟨100000, 64⟩ c7Tree2 :=
  ⟨⟨by decide, by decide, rfl⟩,
    c7_export_deterministic (fun _ => false) c7Cfg ⟨100000, 64⟩ c7Tree1 c7Tree2
      (by decide) (by decide) rfl⟩
